import Mathlib

set_option maxRecDepth 8000

/-!
# Verification of the legal-RAG retrieval pipeline

Shallow embedding of the core of the repository (hierarchical legal-document
chunker and hybrid retrieval engine) together with proofs of the specified
properties.

External collaborators (the tiktoken tokenizer, the Python `re` engine for the
heading/caput regexes, the ChromaDB dense index, the BM25 library scoring and
the CrossEncoder relevance model) are modelled as parameters, exactly as the
specification treats them as external; all surrounding logic is translated
directly from the source files:

* `src/retrieval/hybrid_search.py` (RRF fusion, revoked-status filtering)
* `src/chunking/legal_chunker.py` (article segmentation, long-unit splitting,
  chunk assembly)
* `src/etl/revocation_filter.py` (revocation classification)
* `src/retrieval/reranker.py` (cross-encoder reranking)
-/

namespace TCC

/-! ## Data model: search results (`hybrid_search.py`, dataclass `SearchResult`)

The `metadata` dict always carries the five keys written by `search_sparse`
(`source`, `category`, `status`, `article_id`, `hierarchy`, the latter already
flattened with `" > "`), and the dense path stores the same chunk metadata, so
it is modelled as a structure of scalar strings. -/

structure ChunkMeta where
  source : String
  category : String
  status : String
  article_id : String
  hierarchy : String
deriving DecidableEq, Repr

/-- `SearchResult` of `hybrid_search.py`: content, metadata, a numeric score
(modelled with exact rationals) and the provenance tag. -/
structure SearchResult where
  content : String
  metadata : ChunkMeta
  score : ℚ
  source : String
deriving DecidableEq, Repr

/-! ## Hybrid search (`HybridSearchEngine.search_hybrid`)

The dense and sparse candidate lists are inputs of the fusion step: the code
obtains them from the external ChromaDB index (`search_dense`) and from the
BM25 library (`search_sparse`), both external collaborators.  Everything from
line 171 of `hybrid_search.py` on (the revoked filter, the `content_map`
accumulation, the RRF formula, the sort and the truncation) is embedded
below. -/

/-- `result.content[:200]`: the 200-character prefix used as dedup key. -/
def key200 (s : String) : String := s.take 200

/-- One entry of the Python `content_map` dict: key, first stored result,
accumulated RRF score.  Python dicts preserve insertion order, hence a list. -/
abbrev FusionEntry := String × SearchResult × ℚ

/-- `content_map[key] += rrf` / `content_map[key] = {...}`: update in place if
the key is present, append otherwise (Python dict insertion order). -/
def upsert (key : String) (res : SearchResult) (inc : ℚ) :
    List FusionEntry → List FusionEntry
  | [] => [(key, res, inc)]
  | e :: rest =>
      if e.1 = key then (e.1, e.2.1, e.2.2 + inc) :: rest
      else e :: upsert key res inc rest

/-- `for rank, result in enumerate(ranking): ... rrf_score = w * (1.0 / (k + rank + 1))`
with the RRF constant `k = 60`, starting from rank `n`. -/
def addRankingAux (w : ℚ) : ℕ → List SearchResult → List FusionEntry → List FusionEntry
  | _, [], m => m
  | rank, r :: rs, m =>
      addRankingAux w (rank + 1) rs
        (upsert (key200 r.content) r (w * (1 / (60 + (rank : ℚ) + 1))) m)

/-- The full `content_map` after both loops of `search_hybrid`: the dense
ranking is folded in first, then the (already filtered) sparse ranking. -/
def fusionMap (dw sw : ℚ) (dense sparse : List SearchResult) : List FusionEntry :=
  addRankingAux sw 0 sparse (addRankingAux dw 0 dense [])

/-- The comparison used by `sorted(..., key=lambda x: x["rrf_score"], reverse=True)`:
`a` may precede `b` when its fused score is at least `b`'s.  A stable sort under
this relation is exactly Python's stable descending sort. -/
def scoreGE (a b : FusionEntry) : Prop := b.2.2 ≤ a.2.2

instance : DecidableRel scoreGE := fun a b => inferInstanceAs (Decidable (b.2.2 ≤ a.2.2))

instance : IsTotal FusionEntry scoreGE := ⟨fun a b => le_total b.2.2 a.2.2⟩

instance : IsTrans FusionEntry scoreGE := ⟨fun _ _ _ h1 h2 => le_trans h2 h1⟩

/-- The revoked-status filter applied to the sparse results
(`if filter_revoked: sparse_results = [r for r in sparse_results if r.metadata.get("status") != "revogado"]`). -/
def filterRevoked (filter_revoked : Bool) (rs : List SearchResult) : List SearchResult :=
  if filter_revoked then rs.filter (fun r => r.metadata.status ≠ "revogado") else rs

/-- The final projection of a `content_map` entry to the returned
`SearchResult` (fused origin, RRF score). -/
def toHybridResult (e : FusionEntry) : SearchResult :=
  { content := e.2.1.content, metadata := e.2.1.metadata,
    score := e.2.2, source := "hybrid" }

/-- `HybridSearchEngine.search_hybrid`, lines 171-233 of `hybrid_search.py`,
as a function of the two candidate rankings: filter revoked sparse results,
accumulate the weighted RRF scores per 200-character content key, sort by
fused score descending (Python's `sorted` is stable; a stable insertion sort
models it exactly), truncate to `top_k` and retag as `"hybrid"`. -/
def search_hybrid (dense sparse : List SearchResult) (top_k : ℕ)
    (dense_weight sparse_weight : ℚ) (filter_revoked : Bool) : List SearchResult :=
  ((((fusionMap dense_weight sparse_weight dense
        (filterRevoked filter_revoked sparse)).insertionSort scoreGE).take
      top_k).map toHybridResult)

/-- The 0-based rank of the first chunk of `ranking` whose 200-character
content prefix is `key` (the rank the specification's RRF formula refers to). -/
def rankOf (key : String) : List SearchResult → Option ℕ
  | [] => none
  | r :: rs =>
      if key200 r.content = key then some 0
      else (rankOf key rs).map (· + 1)

/-- The specification's per-ranking RRF contribution: `w * 1/(60 + rank + 1)`
when the chunk appears in the ranking at 0-based position `rank`, `0` when it
does not appear. -/
def claimContrib (w : ℚ) (ranking : List SearchResult) (key : String) : ℚ :=
  match rankOf key ranking with
  | some rank => w * (1 / (60 + (rank : ℚ) + 1))
  | none => 0

/-! ### Auxiliary functions for reasoning about the fusion map -/

/-- Score stored under a key in the `content_map`. -/
def lookupScore (key : String) : List FusionEntry → Option ℚ
  | [] => none
  | e :: rest => if e.1 = key then some e.2.2 else lookupScore key rest

/-- The keys of the `content_map`, in insertion order. -/
def keysOf (m : List FusionEntry) : List String := m.map (fun e => e.1)

/-- The dedup keys of a ranking, in ranking order. -/
def rankKeys (rs : List SearchResult) : List String :=
  rs.map (fun r => key200 r.content)

/-- Total RRF mass a key collects from a ranking processed from rank `n` on
(one summand per occurrence, exactly as the Python loop accumulates). -/
def rrfContribAux (w : ℚ) : ℕ → List SearchResult → String → ℚ
  | _, [], _ => 0
  | n, r :: rs, key =>
      (if key200 r.content = key then w * (1 / (60 + (n : ℚ) + 1)) else 0) +
        rrfContribAux w (n + 1) rs key

/-! ### Lemmas on the map construction -/

@[simp] theorem keysOf_nil : keysOf [] = [] := rfl

@[simp] theorem keysOf_cons (e : FusionEntry) (m : List FusionEntry) :
    keysOf (e :: m) = e.1 :: keysOf m := rfl

@[simp] theorem lookupScore_nil (key : String) : lookupScore key [] = none := rfl

theorem lookupScore_cons (key : String) (e : FusionEntry) (m : List FusionEntry) :
    lookupScore key (e :: m) =
      if e.1 = key then some e.2.2 else lookupScore key m := rfl

theorem upsert_cons_pos (key : String) (res : SearchResult) (inc : ℚ)
    (e : FusionEntry) (m : List FusionEntry) (h : e.1 = key) :
    upsert key res inc (e :: m) = (e.1, e.2.1, e.2.2 + inc) :: m := by
  simp [upsert, h]

theorem upsert_cons_neg (key : String) (res : SearchResult) (inc : ℚ)
    (e : FusionEntry) (m : List FusionEntry) (h : ¬ e.1 = key) :
    upsert key res inc (e :: m) = e :: upsert key res inc m := by
  simp [upsert, h]

theorem lookupScore_upsert_self (key : String) (res : SearchResult) (inc : ℚ)
    (m : List FusionEntry) :
    lookupScore key (upsert key res inc m) =
      some ((lookupScore key m).getD 0 + inc) := by
  induction m with
  | nil => simp [upsert, lookupScore]
  | cons e rest ih =>
    by_cases h : e.1 = key
    · rw [upsert_cons_pos key res inc e rest h]
      simp [lookupScore_cons, h]
    · rw [upsert_cons_neg key res inc e rest h]
      simp [lookupScore_cons, h, ih]

theorem lookupScore_upsert_ne (k key : String) (res : SearchResult) (inc : ℚ)
    (m : List FusionEntry) (h : key ≠ k) :
    lookupScore k (upsert key res inc m) = lookupScore k m := by
  induction m with
  | nil => simp [upsert, lookupScore_cons, h]
  | cons e rest ih =>
    by_cases he : e.1 = key
    · rw [upsert_cons_pos key res inc e rest he]
      have hek : ¬ e.1 = k := fun hc => h (he ▸ hc)
      simp [lookupScore_cons, hek]
    · rw [upsert_cons_neg key res inc e rest he]
      simp [lookupScore_cons, ih]

theorem mem_keysOf_upsert (k key : String) (res : SearchResult) (inc : ℚ)
    (m : List FusionEntry) :
    k ∈ keysOf (upsert key res inc m) ↔ k ∈ keysOf m ∨ k = key := by
  induction m with
  | nil => simp [upsert]
  | cons e rest ih =>
    by_cases he : e.1 = key
    · rw [upsert_cons_pos key res inc e rest he]
      subst he
      simp only [keysOf_cons, List.mem_cons]
      tauto
    · rw [upsert_cons_neg key res inc e rest he]
      simp only [keysOf_cons, List.mem_cons, ih]
      tauto

theorem nodup_keysOf_upsert (key : String) (res : SearchResult) (inc : ℚ)
    (m : List FusionEntry) (h : (keysOf m).Nodup) :
    (keysOf (upsert key res inc m)).Nodup := by
  induction m with
  | nil => simp [upsert]
  | cons e rest ih =>
    simp only [keysOf_cons, List.nodup_cons] at h
    by_cases he : e.1 = key
    · rw [upsert_cons_pos key res inc e rest he]
      simp only [keysOf_cons, List.nodup_cons]
      exact h
    · rw [upsert_cons_neg key res inc e rest he]
      simp only [keysOf_cons, List.nodup_cons]
      refine ⟨?_, ih h.2⟩
      rw [mem_keysOf_upsert]
      rintro (hc | hc)
      · exact h.1 hc
      · exact he hc

theorem snd_mem_upsert (key : String) (res : SearchResult) (inc : ℚ)
    (m : List FusionEntry) :
    ∀ e ∈ upsert key res inc m, e.2.1 = res ∨ e.2.1 ∈ m.map (fun x => x.2.1) := by
  induction m with
  | nil =>
    intro e hmem
    simp only [upsert, List.mem_singleton] at hmem
    subst hmem
    exact Or.inl rfl
  | cons x rest ih =>
    intro e hmem
    by_cases he : x.1 = key
    · rw [upsert_cons_pos key res inc x rest he] at hmem
      rcases List.mem_cons.mp hmem with h | h
      · subst h; right; simp
      · right
        exact List.mem_cons_of_mem _ (List.mem_map_of_mem _ h)
    · rw [upsert_cons_neg key res inc x rest he] at hmem
      rcases List.mem_cons.mp hmem with h | h
      · subst h; right; simp
      · rcases ih e h with h2 | h2
        · exact Or.inl h2
        · right; exact List.mem_cons_of_mem _ h2

theorem keyOf_upsert (key : String) (res : SearchResult) (inc : ℚ)
    (m : List FusionEntry) (hm : ∀ e ∈ m, e.1 = key200 e.2.1.content)
    (hkey : key = key200 res.content) :
    ∀ e ∈ upsert key res inc m, e.1 = key200 e.2.1.content := by
  induction m with
  | nil =>
    intro e hmem
    simp only [upsert, List.mem_singleton] at hmem
    subst hmem
    exact hkey
  | cons x rest ih =>
    intro e hmem
    by_cases he : x.1 = key
    · rw [upsert_cons_pos key res inc x rest he] at hmem
      rcases List.mem_cons.mp hmem with h | h
      · subst h
        exact hm x (by simp)
      · exact hm e (List.mem_cons_of_mem _ h)
    · rw [upsert_cons_neg key res inc x rest he] at hmem
      rcases List.mem_cons.mp hmem with h | h
      · subst h; exact hm e (by simp)
      · exact ih (fun e' he' => hm e' (List.mem_cons_of_mem _ he')) e h

/-! ### Lemmas on processing a whole ranking -/

@[simp] theorem rankKeys_nil : rankKeys [] = [] := rfl

@[simp] theorem rankKeys_cons (r : SearchResult) (rs : List SearchResult) :
    rankKeys (r :: rs) = key200 r.content :: rankKeys rs := rfl

theorem rrfContribAux_cons (w : ℚ) (n : ℕ) (r : SearchResult)
    (rs : List SearchResult) (key : String) :
    rrfContribAux w n (r :: rs) key =
      (if key200 r.content = key then w * (1 / (60 + (n : ℚ) + 1)) else 0) +
        rrfContribAux w (n + 1) rs key := rfl

theorem addRankingAux_cons (w : ℚ) (n : ℕ) (r : SearchResult)
    (rs : List SearchResult) (m : List FusionEntry) :
    addRankingAux w n (r :: rs) m =
      addRankingAux w (n + 1) rs
        (upsert (key200 r.content) r (w * (1 / (60 + (n : ℚ) + 1))) m) := rfl

theorem rrfContribAux_of_not_mem (w : ℚ) (key : String) :
    ∀ (rs : List SearchResult) (n : ℕ), key ∉ rankKeys rs →
      rrfContribAux w n rs key = 0 := by
  intro rs
  induction rs with
  | nil => intro n _; rfl
  | cons r rs ih =>
    intro n hmem
    simp only [rankKeys_cons, List.mem_cons, not_or] at hmem
    rw [rrfContribAux_cons, if_neg (fun hc => hmem.1 hc.symm), ih (n + 1) hmem.2,
      zero_add]

theorem lookupScore_addRankingAux (w : ℚ) :
    ∀ (rs : List SearchResult) (n : ℕ) (m : List FusionEntry) (key : String),
      lookupScore key (addRankingAux w n rs m) =
        match lookupScore key m with
        | some v => some (v + rrfContribAux w n rs key)
        | none =>
            if key ∈ rankKeys rs then some (rrfContribAux w n rs key) else none := by
  intro rs
  induction rs with
  | nil =>
    intro n m key
    cases hlm : lookupScore key m <;>
      simp [addRankingAux, rrfContribAux, hlm]
  | cons r rs ih =>
    intro n m key
    rw [addRankingAux_cons, ih]
    by_cases hk : key200 r.content = key
    · rw [hk, lookupScore_upsert_self key r _ m]
      have hkeymem : key ∈ rankKeys (r :: rs) := by
        simp [rankKeys_cons, hk]
      rw [rrfContribAux_cons, if_pos hk]
      cases hlm : lookupScore key m with
      | some v =>
        simp only [hlm, Option.getD_some, if_pos hkeymem]
        rw [add_assoc]
      | none =>
        simp only [hlm, Option.getD_none, if_pos hkeymem, zero_add]
    · rw [lookupScore_upsert_ne key (key200 r.content) r _ m hk]
      have hmemiff : (key ∈ rankKeys (r :: rs)) = (key ∈ rankKeys rs) := by
        simp only [rankKeys_cons, List.mem_cons, eq_iff_iff]
        constructor
        · rintro (hc | hc)
          · exact absurd hc.symm hk
          · exact hc
        · exact Or.inr
      rw [rrfContribAux_cons, if_neg hk, zero_add]
      cases hlm : lookupScore key m with
      | some v => rfl
      | none => simp only [hmemiff]

theorem mem_keysOf_addRankingAux (w : ℚ) :
    ∀ (rs : List SearchResult) (n : ℕ) (m : List FusionEntry) (key : String),
      key ∈ keysOf (addRankingAux w n rs m) ↔
        key ∈ keysOf m ∨ key ∈ rankKeys rs := by
  intro rs
  induction rs with
  | nil => intro n m key; simp [addRankingAux]
  | cons r rs ih =>
    intro n m key
    rw [addRankingAux_cons, ih, mem_keysOf_upsert]
    simp only [rankKeys_cons, List.mem_cons]
    tauto

theorem nodup_keysOf_addRankingAux (w : ℚ) :
    ∀ (rs : List SearchResult) (n : ℕ) (m : List FusionEntry),
      (keysOf m).Nodup → (keysOf (addRankingAux w n rs m)).Nodup := by
  intro rs
  induction rs with
  | nil => intro n m h; exact h
  | cons r rs ih =>
    intro n m h
    rw [addRankingAux_cons]
    exact ih (n + 1) _ (nodup_keysOf_upsert _ _ _ m h)

theorem snd_mem_addRankingAux (w : ℚ) :
    ∀ (rs : List SearchResult) (n : ℕ) (m : List FusionEntry)
      (e : FusionEntry), e ∈ addRankingAux w n rs m →
        e.2.1 ∈ m.map (fun x => x.2.1) ∨ e.2.1 ∈ rs := by
  intro rs
  induction rs with
  | nil => intro n m e h; exact Or.inl (List.mem_map_of_mem _ h)
  | cons r rs ih =>
    intro n m e h
    rw [addRankingAux_cons] at h
    rcases ih (n + 1) _ e h with h2 | h2
    · rcases List.mem_map.mp h2 with ⟨x, hx, hxe⟩
      rcases snd_mem_upsert _ _ _ m x hx with h3 | h3
      · refine Or.inr ?_
        rw [← hxe, h3]
        exact List.mem_cons_self r rs
      · exact Or.inl (hxe ▸ h3)
    · exact Or.inr (List.mem_cons_of_mem _ h2)

theorem keyOf_addRankingAux (w : ℚ) :
    ∀ (rs : List SearchResult) (n : ℕ) (m : List FusionEntry),
      (∀ e ∈ m, e.1 = key200 e.2.1.content) →
      ∀ e ∈ addRankingAux w n rs m, e.1 = key200 e.2.1.content := by
  intro rs
  induction rs with
  | nil => intro n m hm e h; exact hm e h
  | cons r rs ih =>
    intro n m hm e h
    rw [addRankingAux_cons] at h
    exact ih (n + 1) _ (keyOf_upsert _ _ _ m hm rfl) e h

theorem lookupScore_of_mem :
    ∀ (m : List FusionEntry), (keysOf m).Nodup →
      ∀ e ∈ m, lookupScore e.1 m = some e.2.2 := by
  intro m
  induction m with
  | nil => intro _ e h; exact absurd h (List.not_mem_nil e)
  | cons x rest ih =>
    intro hnd e h
    simp only [keysOf_cons, List.nodup_cons] at hnd
    rcases List.mem_cons.mp h with h1 | h1
    · subst h1
      simp [lookupScore_cons]
    · have hne : x.1 ≠ e.1 := by
        intro hc
        exact hnd.1 (hc ▸ List.mem_map_of_mem (fun y => y.1) h1)
      rw [lookupScore_cons, if_neg hne]
      exact ih hnd.2 e h1

/-! ### Properties of the full fusion map -/

theorem nodup_keysOf_fusionMap (dw sw : ℚ) (dense sp : List SearchResult) :
    (keysOf (fusionMap dw sw dense sp)).Nodup := by
  unfold fusionMap
  exact nodup_keysOf_addRankingAux sw sp 0 _
    (nodup_keysOf_addRankingAux dw dense 0 [] (by simp))

theorem mem_keysOf_fusionMap (dw sw : ℚ) (dense sp : List SearchResult)
    (key : String) :
    key ∈ keysOf (fusionMap dw sw dense sp) ↔
      key ∈ rankKeys dense ∨ key ∈ rankKeys sp := by
  unfold fusionMap
  rw [mem_keysOf_addRankingAux, mem_keysOf_addRankingAux]
  simp

theorem lookupScore_fusionMap (dw sw : ℚ) (dense sp : List SearchResult)
    (key : String) (h : key ∈ rankKeys dense ∨ key ∈ rankKeys sp) :
    lookupScore key (fusionMap dw sw dense sp) =
      some (rrfContribAux dw 0 dense key + rrfContribAux sw 0 sp key) := by
  unfold fusionMap
  rw [lookupScore_addRankingAux, lookupScore_addRankingAux]
  simp only [lookupScore_nil]
  by_cases hd : key ∈ rankKeys dense
  · rw [if_pos hd]
  · have hs : key ∈ rankKeys sp := h.resolve_left hd
    have hz := rrfContribAux_of_not_mem dw key dense 0 hd
    rw [if_neg hd]
    simp [if_pos hs, hz]

/-- Every `content_map` entry is keyed by the 200-character prefix of the
stored result, stores a result drawn from one of the two rankings, and holds
exactly the accumulated weighted RRF mass of its key. -/
theorem fusionMap_entry (dw sw : ℚ) (dense sp : List SearchResult)
    (e : FusionEntry) (he : e ∈ fusionMap dw sw dense sp) :
    e.1 = key200 e.2.1.content ∧ (e.2.1 ∈ dense ∨ e.2.1 ∈ sp) ∧
      e.2.2 = rrfContribAux dw 0 dense e.1 + rrfContribAux sw 0 sp e.1 := by
  have hkey : e.1 = key200 e.2.1.content := by
    unfold fusionMap at he
    exact keyOf_addRankingAux sw sp 0 _
      (keyOf_addRankingAux dw dense 0 [] (by simp)) e he
  have hmem : e.2.1 ∈ dense ∨ e.2.1 ∈ sp := by
    unfold fusionMap at he
    rcases snd_mem_addRankingAux sw sp 0 _ e he with h | h
    · rcases List.mem_map.mp h with ⟨x, hx, hxe⟩
      rcases snd_mem_addRankingAux dw dense 0 [] x hx with h2 | h2
      · simp at h2
      · exact Or.inl (hxe ▸ h2)
    · exact Or.inr h
  have hkeymem : e.1 ∈ keysOf (fusionMap dw sw dense sp) :=
    List.mem_map_of_mem (fun x => x.1) he
  rw [mem_keysOf_fusionMap] at hkeymem
  have hl := lookupScore_fusionMap dw sw dense sp e.1 hkeymem
  have hl2 := lookupScore_of_mem _ (nodup_keysOf_fusionMap dw sw dense sp) e he
  rw [hl] at hl2
  exact ⟨hkey, hmem, (Option.some_inj.mp hl2).symm⟩

/-! ### Bridging the accumulated mass to the specification's rank formula -/

@[simp] theorem rankOf_nil (key : String) : rankOf key [] = none := rfl

theorem rankOf_cons (key : String) (r : SearchResult) (rs : List SearchResult) :
    rankOf key (r :: rs) =
      if key200 r.content = key then some 0 else (rankOf key rs).map (· + 1) := rfl

theorem rrfContribAux_eq_rankOf (w : ℚ) (key : String) :
    ∀ (rs : List SearchResult), (rankKeys rs).Nodup → ∀ (n : ℕ),
      rrfContribAux w n rs key =
        match rankOf key rs with
        | some i => w * (1 / (60 + ((n + i : ℕ) : ℚ) + 1))
        | none => 0 := by
  intro rs
  induction rs with
  | nil => intro _ n; rfl
  | cons r rs ih =>
    intro hnd n
    simp only [rankKeys_cons, List.nodup_cons] at hnd
    by_cases hk : key200 r.content = key
    · have hnot : key ∉ rankKeys rs := hk ▸ hnd.1
      rw [rrfContribAux_cons, if_pos hk,
        rrfContribAux_of_not_mem w key rs (n + 1) hnot, add_zero,
        rankOf_cons, if_pos hk]
      simp
    · rw [rrfContribAux_cons, if_neg hk, zero_add, ih hnd.2 (n + 1),
        rankOf_cons, if_neg hk]
      cases hr : rankOf key rs with
      | none => rfl
      | some i =>
        show w * (1 / (60 + ((n + 1 + i : ℕ) : ℚ) + 1)) =
          w * (1 / (60 + ((n + (i + 1) : ℕ) : ℚ) + 1))
        have h3 : ((n + 1 + i : ℕ) : ℚ) = ((n + (i + 1) : ℕ) : ℚ) := by
          push_cast
          ring
        rw [h3]

theorem rrfContrib_eq_claimContrib (w : ℚ) (rs : List SearchResult)
    (key : String) (hnd : (rankKeys rs).Nodup) :
    rrfContribAux w 0 rs key = claimContrib w rs key := by
  rw [rrfContribAux_eq_rankOf w key rs hnd 0]
  unfold claimContrib
  cases rankOf key rs <;> simp

/-! ### The sort/truncate layer of search_hybrid -/

theorem search_hybrid_mem (dense sparse : List SearchResult) (top_k : ℕ)
    (dw sw : ℚ) (f : Bool) (res : SearchResult)
    (h : res ∈ search_hybrid dense sparse top_k dw sw f) :
    ∃ e ∈ fusionMap dw sw dense (filterRevoked f sparse),
      res = toHybridResult e := by
  unfold search_hybrid at h
  rcases List.mem_map.mp h with ⟨e, he, hres⟩
  have he2 := List.mem_of_mem_take he
  have he3 := ((List.perm_insertionSort scoreGE _).mem_iff).mp he2
  exact ⟨e, he3, hres.symm⟩

/-- C1: the fused score of every result returned by `search_hybrid` is the
sum, over the dense and the (filtered) sparse ranking in which the chunk's
200-character key appears, of that ranking's weight times `1/(60 + rank + 1)`
with `rank` its 0-based position in the ranking; the returned list carries
the distinct chunks of maximal fused score, of length `min top_k` (number of
distinct keys), with scores monotonically non-increasing along the list. -/
theorem search_hybrid_rrf_correct
    (dense sparse : List SearchResult) (top_k : ℕ) (dw sw : ℚ) (f : Bool)
    (hdw : 0 ≤ dw) (hsw : 0 ≤ sw)
    (hd : (rankKeys dense).Nodup)
    (hs : (rankKeys (filterRevoked f sparse)).Nodup) :
    (∀ res ∈ search_hybrid dense sparse top_k dw sw f,
        res.score = claimContrib dw dense (key200 res.content) +
          claimContrib sw (filterRevoked f sparse) (key200 res.content)) ∧
    (search_hybrid dense sparse top_k dw sw f).Pairwise
        (fun a b => b.score ≤ a.score) ∧
    (search_hybrid dense sparse top_k dw sw f).length =
        min top_k (fusionMap dw sw dense (filterRevoked f sparse)).length ∧
    (∀ c ∈ dense ++ filterRevoked f sparse,
        key200 c.content ∉
          (search_hybrid dense sparse top_k dw sw f).map
            (fun r => key200 r.content) →
        ∀ res ∈ search_hybrid dense sparse top_k dw sw f,
          claimContrib dw dense (key200 c.content) +
            claimContrib sw (filterRevoked f sparse) (key200 c.content) ≤
              res.score) := by
  refine ⟨?_, ?_, ?_, ?_⟩
  · intro res hres
    obtain ⟨e, he, rfl⟩ := search_hybrid_mem dense sparse top_k dw sw f res hres
    obtain ⟨hkey, _, hval⟩ := fusionMap_entry dw sw dense _ e he
    show e.2.2 = claimContrib dw dense (key200 e.2.1.content) +
      claimContrib sw (filterRevoked f sparse) (key200 e.2.1.content)
    rw [hval, ← hkey,
      rrfContrib_eq_claimContrib dw dense e.1 hd,
      rrfContrib_eq_claimContrib sw _ e.1 hs]
  · unfold search_hybrid
    rw [List.pairwise_map]
    have hso : ((fusionMap dw sw dense
        (filterRevoked f sparse)).insertionSort scoreGE).Pairwise scoreGE :=
      List.sorted_insertionSort scoreGE _
    exact (hso.sublist (List.take_sublist top_k _)).imp (fun h => h)
  · unfold search_hybrid
    rw [List.length_map, List.length_take, List.length_insertionSort]
  · intro c hc hnotin res hres
    obtain ⟨x, hxtake, rfl⟩ : ∃ x ∈ ((fusionMap dw sw dense
        (filterRevoked f sparse)).insertionSort scoreGE).take top_k,
          res = toHybridResult x := by
      unfold search_hybrid at hres
      rcases List.mem_map.mp hres with ⟨x, hx, hxr⟩
      exact ⟨x, hx, hxr.symm⟩
    have hkeymem : key200 c.content ∈ rankKeys dense ∨
        key200 c.content ∈ rankKeys (filterRevoked f sparse) := by
      rcases List.mem_append.mp hc with h | h
      · exact Or.inl (List.mem_map_of_mem _ h)
      · exact Or.inr (List.mem_map_of_mem _ h)
    obtain ⟨e, he, hek⟩ := List.mem_map.mp
      ((mem_keysOf_fusionMap dw sw dense _ (key200 c.content)).mpr hkeymem)
    obtain ⟨hekey, _, heval⟩ := fusionMap_entry dw sw dense _ e he
    have hperm := (List.perm_insertionSort scoreGE
      (fusionMap dw sw dense (filterRevoked f sparse))).symm
    have he_s : e ∈ (fusionMap dw sw dense
        (filterRevoked f sparse)).insertionSort scoreGE := hperm.mem_iff.mp he
    have he_drop : e ∈ ((fusionMap dw sw dense
        (filterRevoked f sparse)).insertionSort scoreGE).drop top_k := by
      rw [← List.take_append_drop top_k ((fusionMap dw sw dense
        (filterRevoked f sparse)).insertionSort scoreGE)] at he_s
      rcases List.mem_append.mp he_s with h | h
      · exfalso
        apply hnotin
        have h1 : toHybridResult e ∈
            search_hybrid dense sparse top_k dw sw f :=
          List.mem_map_of_mem toHybridResult h
        have h2 := List.mem_map_of_mem (fun r => key200 r.content) h1
        have h3 : key200 (toHybridResult e).content = key200 c.content := by
          show key200 e.2.1.content = key200 c.content
          rw [← hekey, hek]
        simpa [h3] using h2
      · exact h
    have hso : (((fusionMap dw sw dense
          (filterRevoked f sparse)).insertionSort scoreGE).take top_k ++
        ((fusionMap dw sw dense
          (filterRevoked f sparse)).insertionSort scoreGE).drop
            top_k).Pairwise scoreGE := by
      rw [List.take_append_drop]
      exact List.sorted_insertionSort scoreGE _
    have hcross := (List.pairwise_append.mp hso).2.2
    have hxy : scoreGE x e := hcross x hxtake e he_drop
    have hescore : e.2.2 = claimContrib dw dense (key200 c.content) +
        claimContrib sw (filterRevoked f sparse) (key200 c.content) := by
      rw [heval, hek,
        rrfContrib_eq_claimContrib dw dense _ hd,
        rrfContrib_eq_claimContrib sw _ _ hs]
    show claimContrib dw dense (key200 c.content) +
        claimContrib sw (filterRevoked f sparse) (key200 c.content) ≤ x.2.2
    rw [← hescore]
    exact hxy

/-- C2: with revoked filtering on, no returned result has status
`"revogado"`, provided every dense candidate already satisfies this (the
dense search passes the equality filter `where status == "vigente"` to the
external vector index upstream); every revoked sparse candidate is dropped
before fusion. -/
theorem search_hybrid_filters_revoked
    (dense sparse : List SearchResult) (top_k : ℕ) (dw sw : ℚ)
    (hdense : ∀ r ∈ dense, r.metadata.status ≠ "revogado") :
    ∀ res ∈ search_hybrid dense sparse top_k dw sw true,
      res.metadata.status ≠ "revogado" := by
  intro res hres
  obtain ⟨e, he, rfl⟩ :=
    search_hybrid_mem dense sparse top_k dw sw true res hres
  obtain ⟨_, hmem, _⟩ := fusionMap_entry dw sw dense _ e he
  show e.2.1.metadata.status ≠ "revogado"
  rcases hmem with h | h
  · exact hdense _ h
  · have h2 := List.of_mem_filter
      (by simpa [filterRevoked] using h :
        e.2.1 ∈ sparse.filter (fun r => r.metadata.status ≠ "revogado"))
    simpa using h2

/-! ### Degraded mode: no sparse results (claim C8) -/

/-- The entries the dense loop appends when every key is fresh:
`(key, result, w/(60 + rank + 1))` in ranking order from rank `n`. -/
def rankEntries (w : ℚ) : ℕ → List SearchResult → List FusionEntry
  | _, [] => []
  | n, r :: rs =>
      (key200 r.content, r, w * (1 / (60 + (n : ℚ) + 1))) ::
        rankEntries w (n + 1) rs

theorem upsert_of_not_mem (key : String) (res : SearchResult) (inc : ℚ)
    (m : List FusionEntry) (h : key ∉ keysOf m) :
    upsert key res inc m = m ++ [(key, res, inc)] := by
  induction m with
  | nil => rfl
  | cons e rest ih =>
    simp only [keysOf_cons, List.mem_cons, not_or] at h
    rw [upsert_cons_neg key res inc e rest (fun hc => h.1 hc.symm)]
    rw [ih h.2, List.cons_append]

theorem addRankingAux_of_disjoint (w : ℚ) :
    ∀ (rs : List SearchResult) (n : ℕ) (m : List FusionEntry),
      (rankKeys rs).Nodup → (∀ k ∈ rankKeys rs, k ∉ keysOf m) →
      addRankingAux w n rs m = m ++ rankEntries w n rs := by
  intro rs
  induction rs with
  | nil => intro n m _ _; simp [addRankingAux, rankEntries]
  | cons r rs ih =>
    intro n m hnd hdisj
    simp only [rankKeys_cons, List.nodup_cons] at hnd
    rw [addRankingAux_cons,
      upsert_of_not_mem _ _ _ m (hdisj _ (by simp)),
      ih (n + 1) _ hnd.2]
    · show m ++ [(key200 r.content, r, w * (1 / (60 + (n : ℚ) + 1)))] ++
        rankEntries w (n + 1) rs = m ++ rankEntries w n (r :: rs)
      rw [List.append_assoc]
      rfl
    · intro k hk
      rw [show keysOf (m ++ [(key200 r.content, r,
          w * (1 / (60 + (n : ℚ) + 1)))]) = keysOf m ++ [key200 r.content]
        from by simp [keysOf]]
      simp only [List.mem_append, List.mem_singleton, not_or]
      exact ⟨hdisj k (List.mem_cons_of_mem _ hk),
        fun hc => hnd.1 (hc ▸ hk)⟩

theorem rankEntries_score_le (w : ℚ) (hw : 0 ≤ w) :
    ∀ (rs : List SearchResult) (n : ℕ) (e : FusionEntry),
      e ∈ rankEntries w n rs → e.2.2 ≤ w * (1 / (60 + (n : ℚ) + 1)) := by
  intro rs
  induction rs with
  | nil => intro n e h; exact absurd h (List.not_mem_nil e)
  | cons r rs ih =>
    intro n e h
    rcases List.mem_cons.mp h with h1 | h1
    · subst h1; rfl
    · have h2 := ih (n + 1) e h1
      refine le_trans h2 ?_
      apply mul_le_mul_of_nonneg_left _ hw
      apply one_div_le_one_div_of_le
      · positivity
      · push_cast
        linarith

theorem rankEntries_sorted (w : ℚ) (hw : 0 ≤ w) :
    ∀ (rs : List SearchResult) (n : ℕ),
      List.Sorted scoreGE (rankEntries w n rs) := by
  intro rs
  induction rs with
  | nil => intro n; simp [rankEntries]
  | cons r rs ih =>
    intro n
    rw [show rankEntries w n (r :: rs) =
      (key200 r.content, r, w * (1 / (60 + (n : ℚ) + 1))) ::
        rankEntries w (n + 1) rs from rfl]
    rw [List.sorted_cons]
    refine ⟨?_, ih (n + 1)⟩
    intro e he
    have h1 := rankEntries_score_le w hw rs (n + 1) e he
    have h2 : w * (1 / (60 + ((n + 1 : ℕ) : ℚ) + 1)) ≤
        w * (1 / (60 + (n : ℚ) + 1)) := by
      apply mul_le_mul_of_nonneg_left _ hw
      apply one_div_le_one_div_of_le
      · positivity
      · push_cast
        linarith
    show e.2.2 ≤ w * (1 / (60 + (n : ℚ) + 1))
    exact le_trans h1 h2

theorem fusionMap_no_sparse (dw sw : ℚ) (dense : List SearchResult)
    (hd : (rankKeys dense).Nodup) :
    fusionMap dw sw dense [] = rankEntries dw 0 dense := by
  unfold fusionMap
  rw [show addRankingAux sw 0 [] (addRankingAux dw 0 dense []) =
      addRankingAux dw 0 dense [] from rfl]
  rw [addRankingAux_of_disjoint dw dense 0 [] hd (by simp)]
  rfl

theorem rankEntries_map_toHybrid (dw : ℚ) :
    ∀ (rs : List SearchResult) (n : ℕ),
      (rankEntries dw n rs).map toHybridResult =
        (List.enumFrom n rs).map (fun p =>
          { content := p.2.content, metadata := p.2.metadata,
            score := dw * (1 / (60 + (p.1 : ℚ) + 1)),
            source := "hybrid" }) := by
  intro rs
  induction rs with
  | nil => intro n; rfl
  | cons r rs ih =>
    intro n
    show toHybridResult (key200 r.content, r,
        dw * (1 / (60 + (n : ℚ) + 1))) ::
      (rankEntries dw (n + 1) rs).map toHybridResult = _
    rw [ih (n + 1)]
    rfl

/-- C8 (amended): when the sparse search contributes no results,
`search_hybrid` returns the dense candidates in their original order,
truncated to `top_k` — but re-scored with the weighted RRF formula
`dense_weight/(60 + rank + 1)` and retagged `"hybrid"`, not with the dense
similarity scores. -/
theorem search_hybrid_degraded (dense : List SearchResult) (top_k : ℕ)
    (dw sw : ℚ) (f : Bool) (hd : (rankKeys dense).Nodup) (hdw : 0 ≤ dw) :
    search_hybrid dense [] top_k dw sw f =
      (dense.enum.map (fun p =>
        { content := p.2.content, metadata := p.2.metadata,
          score := dw * (1 / (60 + (p.1 : ℚ) + 1)),
          source := "hybrid" })).take top_k := by
  unfold search_hybrid
  have hfe : filterRevoked f [] = ([] : List SearchResult) := by
    unfold filterRevoked
    cases f <;> rfl
  rw [hfe, fusionMap_no_sparse dw sw dense hd,
    (rankEntries_sorted dw hdw dense 0).insertionSort_eq,
    List.map_take, rankEntries_map_toHybrid dw dense 0]
  rfl

/-! ### Concrete fixtures for the hybrid-search claims -/

/-- A mixed two-candidate dense ranking used to instantiate C1. -/
def fxDense : List SearchResult :=
  [⟨"alpha", ⟨"doc", "res", "vigente", "Art. 1", ""⟩, 9, "dense"⟩,
   ⟨"beta", ⟨"doc", "res", "vigente", "Art. 2", ""⟩, 8, "dense"⟩]

/-- A sparse ranking overlapping the dense one on the chunk `"beta"`. -/
def fxSparse : List SearchResult :=
  [⟨"beta", ⟨"doc", "res", "vigente", "Art. 2", ""⟩, 3, "sparse"⟩,
   ⟨"gamma", ⟨"doc", "res", "vigente", "Art. 3", ""⟩, 2, "sparse"⟩]

theorem search_hybrid_rrf_correct_witness :
    (0 : ℚ) ≤ 1 ∧ (0 : ℚ) ≤ 1 ∧ (rankKeys fxDense).Nodup ∧
      (rankKeys (filterRevoked true fxSparse)).Nodup ∧
      ((∀ res ∈ search_hybrid fxDense fxSparse 2 1 1 true,
          res.score = claimContrib 1 fxDense (key200 res.content) +
            claimContrib 1 (filterRevoked true fxSparse) (key200 res.content)) ∧
        (search_hybrid fxDense fxSparse 2 1 1 true).Pairwise
            (fun a b => b.score ≤ a.score) ∧
        (search_hybrid fxDense fxSparse 2 1 1 true).length =
            min 2 (fusionMap 1 1 fxDense (filterRevoked true fxSparse)).length ∧
        (∀ c ∈ fxDense ++ filterRevoked true fxSparse,
            key200 c.content ∉
              (search_hybrid fxDense fxSparse 2 1 1 true).map
                (fun r => key200 r.content) →
            ∀ res ∈ search_hybrid fxDense fxSparse 2 1 1 true,
              claimContrib 1 fxDense (key200 c.content) +
                claimContrib 1 (filterRevoked true fxSparse)
                  (key200 c.content) ≤ res.score)) :=
  ⟨zero_le_one, zero_le_one, by decide, by decide,
    search_hybrid_rrf_correct fxDense fxSparse 2 1 1 true
      zero_le_one zero_le_one (by decide) (by decide)⟩

/-- A single current dense candidate next to a mixed-status sparse corpus. -/
def fxDenseCurrent : List SearchResult :=
  [⟨"alpha", ⟨"doc", "res", "vigente", "Art. 1", ""⟩, 1, "dense"⟩]

/-- A sparse ranking containing a deliberately revoked candidate. -/
def fxSparseMixed : List SearchResult :=
  [⟨"revoked text", ⟨"old", "res", "revogado", "Art. 9", ""⟩, 5, "sparse"⟩,
   ⟨"beta", ⟨"doc", "res", "vigente", "Art. 2", ""⟩, 2, "sparse"⟩]

theorem search_hybrid_filters_revoked_witness :
    (∀ r ∈ fxDenseCurrent, r.metadata.status ≠ "revogado") ∧
      ∀ res ∈ search_hybrid fxDenseCurrent fxSparseMixed 5 1 1 true,
        res.metadata.status ≠ "revogado" :=
  ⟨by decide,
    search_hybrid_filters_revoked fxDenseCurrent fxSparseMixed 5 1 1
      (by decide)⟩

/-- One dense candidate carrying its dense similarity score. -/
def fxDenseOnly : List SearchResult :=
  [⟨"alpha", ⟨"doc", "res", "vigente", "Art. 1", ""⟩, 1, "dense"⟩]

/-- C8 fails as stated: with no sparse results, `search_hybrid` does not
return the dense results unmodified — it retags them `"hybrid"` and replaces
the similarity scores with weighted RRF scores. -/
theorem search_hybrid_degraded_counterexample :
    search_hybrid fxDenseOnly [] 1 1 1 true ≠ fxDenseOnly := by
  intro h
  have h2 := congrArg (List.map (fun r => SearchResult.source r)) h
  have h3 : (search_hybrid fxDenseOnly [] 1 1 1 true).map
      (fun r => SearchResult.source r) = ["hybrid"] := by decide
  rw [h3] at h2
  exact absurd h2 (by decide)

theorem search_hybrid_degraded_witness :
    (rankKeys fxDenseOnly).Nodup ∧ (0 : ℚ) ≤ 1 ∧
      search_hybrid fxDenseOnly [] 1 1 1 true =
        (fxDenseOnly.enum.map (fun p =>
          { content := p.2.content, metadata := p.2.metadata,
            score := 1 * (1 / (60 + (p.1 : ℚ) + 1)),
            source := "hybrid" })).take 1 :=
  ⟨by decide, zero_le_one,
    search_hybrid_degraded fxDenseOnly 1 1 1 true (by decide) zero_le_one⟩

/-! ## Legal chunker (`legal_chunker.py`)

The tiktoken token counter (`count_tokens`) is an external collaborator and
is modelled as a parameter `tok : String → ℕ`; likewise the `re` searches
that locate the caput boundary (`caput_end_patterns`, the earliest match
position, defaulting to the text length) are modelled by a parameter
`caputEnd : ℕ`, and the heading regexes of `extract_hierarchy` by a
parameter `hierOf`.  All surrounding control flow is translated directly. -/

/-- The `ChunkMetadata` dataclass with its Python field defaults. -/
structure ChunkMetadata where
  hierarchy : List String := []
  source : String := ""
  category : String := ""
  status : String := "vigente"
  article_id : String := ""
  chunk_index : ℕ := 0
  is_child_chunk : Bool := false
  parent_article : String := ""
deriving DecidableEq, Repr

/-- The `LegalChunk` dataclass: content plus metadata. -/
structure LegalChunk where
  content : String
  metadata : ChunkMetadata
deriving DecidableEq, Repr

/-- The line-walking loop of `split_long_chunk` (lines 247-273): accumulate
lines while the running token count (pre-seeded with the caput's token
count) stays within budget; close the current unit exactly when adding the
next line would exceed the budget and at least one line is accumulated, then
restart from the deferred line re-seeded with the caput's tokens; flush the
remaining lines at the end. -/
def groupLines (budget : ℕ) (tok : String → ℕ) (caputTok : ℕ) :
    List String → List String → ℕ → List (List String)
  | [], acc, _ => if acc = [] then [] else [acc]
  | l :: ls, acc, cur =>
      if budget < cur + tok l ∧ acc ≠ [] then
        acc :: groupLines budget tok caputTok ls [l] (caputTok + tok l)
      else
        groupLines budget tok caputTok ls (acc ++ [l]) (cur + tok l)

/-- Python `str.strip()` on a list of characters. -/
def stripChars (cs : List Char) : List Char :=
  ((cs.dropWhile Char.isWhitespace).reverse.dropWhile Char.isWhitespace).reverse

/-- Python `str.strip()`.  (Implemented over the string's characters: the
builtin `String.trim` is byte-position based and not kernel-reducible.) -/
def strip (s : String) : String := String.mk (stripChars s.data)

/-- Python `str.split("\n")` over characters: split at every newline,
keeping empty pieces (`[[]]` for the empty text). -/
def splitNl : List Char → List (List Char)
  | [] => [[]]
  | c :: cs =>
      if c = '\n' then [] :: splitNl cs
      else
        match splitNl cs with
        | [] => [[c]]
        | g :: gs => (c :: g) :: gs

/-- Python `rest.split("\n")`. -/
def splitLines (s : String) : List String := (splitNl s.data).map String.mk

/-- Python `"\n".join(lines)`. -/
def joinLines : List String → String
  | [] => ""
  | [l] => l
  | l :: ls => l ++ "\n" ++ joinLines ls

/-- The continuation marker inserted between the re-injected caput and the
accumulated lines of a split unit. -/
def contMarker : String := "\n\n[...continuação...]\n\n"

/-- Content of a split unit: caput, continuation marker, accumulated lines
joined by newlines. -/
def contChunkContent (caput : String) (g : List String) : String :=
  caput ++ contMarker ++ joinLines g

/-- Metadata assigned to the unit with creation index `idx` by
`split_long_chunk`. -/
def mkSplitMeta (meta : ChunkMetadata) (idx : ℕ) : ChunkMetadata :=
  { meta with chunk_index := idx,
              is_child_chunk := decide (0 < idx),
              parent_article := meta.article_id }

/-- The caput of the article: Python `article_text[:caput_end].strip()`
(slices are by code point, hence over the character list). -/
def caputOf (caputEnd : ℕ) (article_text : String) : String :=
  strip (String.mk (article_text.data.take caputEnd))

/-- The remainder after the caput: `article_text[caput_end:].strip()`. -/
def restOf (caputEnd : ℕ) (article_text : String) : String :=
  strip (String.mk (article_text.data.drop caputEnd))

/-- The groups of remainder lines produced by the walking loop of
`split_long_chunk`: the remainder after the caput is stripped, split at
newlines and walked with the token counter pre-seeded with the caput's
tokens. -/
def splitGroups (tok : String → ℕ) (caputEnd : ℕ) (article_text : String)
    (budget : ℕ) : List (List String) :=
  groupLines budget tok (tok (caputOf caputEnd article_text))
    (splitLines (restOf caputEnd article_text)) []
    (tok (caputOf caputEnd article_text))

/-- `split_long_chunk` (lines 185-300): if the remainder after the caput is
empty the article is returned whole as a single chunk; otherwise each group
of lines becomes a unit prefixed with the caput and the continuation marker,
except that a single group is emitted as the original unsplit article
text verbatim. -/
def split_long_chunk (tok : String → ℕ) (caputEnd : ℕ) (article_text : String)
    (meta : ChunkMetadata) (budget : ℕ) : List LegalChunk :=
  if restOf caputEnd article_text = "" then
    [⟨article_text, { meta with chunk_index := 0, is_child_chunk := false }⟩]
  else
    (splitGroups tok caputEnd article_text budget).enum.map (fun p =>
      if (splitGroups tok caputEnd article_text budget).length = 1 then
        ⟨article_text, mkSplitMeta meta 0⟩
      else
        ⟨contChunkContent (caputOf caputEnd article_text) p.2,
          mkSplitMeta meta p.1⟩)

/-- The per-article step of `chunk_document` (lines 348-363): long articles
are split with caput inheritance, short ones become a single chunk with the
base metadata. -/
def processArticle (tok : String → ℕ) (caputEnd : ℕ) (budget : ℕ)
    (article_text : String) (meta : ChunkMetadata) : List LegalChunk :=
  if budget < tok article_text then
    split_long_chunk tok caputEnd article_text meta budget
  else
    [⟨article_text, meta⟩]

/-- Case-insensitive literal match at the start of the text, returning the
consumed original characters and the rest (models a case-insensitive regex
literal). -/
def matchCI : List Char → List Char → Option (List Char × List Char)
  | [], cs => some ([], cs)
  | _ :: _, [] => none
  | p :: ps, c :: cs =>
      if c.toLower = p.toLower then
        (matchCI ps cs).map (fun r => (c :: r.1, r.2))
      else none

/-- The greedy optional prefix of up to two asterisks in the article-id
pattern. -/
def dropStars : List Char → List Char
  | '*' :: '*' :: rest => rest
  | '*' :: rest => rest
  | rest => rest

/-- `extract_article_id` (lines 137-148): match the pattern
`(?:\*{0,2})(Art\.?\s*\d+[º°]?)` (case-insensitive) against the stripped
text and return the stripped first group, or the empty string.  Python's
`\d` is modelled as an ASCII digit. -/
def extract_article_id (text : String) : String :=
  let cs1 := dropStars (stripChars text.toList)
  match matchCI ("Art".toList) cs1 with
  | none => ""
  | some (art, rest1) =>
      let dotPart : List Char × List Char :=
        match rest1 with
        | '.' :: r => (['.'], r)
        | r => ([], r)
      let ws := dotPart.2.takeWhile Char.isWhitespace
      let rest3 := dotPart.2.dropWhile Char.isWhitespace
      let ds := rest3.takeWhile Char.isDigit
      if ds = [] then ""
      else
        let ord : List Char :=
          match rest3.drop ds.length with
          | 'º' :: _ => ['º']
          | '°' :: _ => ['°']
          | _ => []
        String.mk (stripChars (art ++ dotPart.1 ++ ws ++ ds ++ ord))

/-- The base metadata built by `chunk_document` for an article block. -/
def baseMetadata (hierarchy : List String)
    (source category status article_id : String) : ChunkMetadata :=
  { hierarchy := hierarchy, source := source, category := category,
    status := status, article_id := article_id }

/-- `chunk_document` (lines 303-366) downstream of article segmentation:
for each `(position, article_text)` block, build the base metadata (with the
hierarchy extracted at the block's position, modelled by `hierOf`, and the
article id extracted from the block text) and emit the block's chunks.
`caputEndOf` models the caput-boundary regex search of `split_long_chunk`. -/
def chunk_document (tok : String → ℕ) (caputEndOf : String → ℕ)
    (hierOf : ℕ → List String) (articles : List (ℕ × String))
    (source category status : String) (budget : ℕ) : List LegalChunk :=
  (articles.map (fun p =>
    processArticle tok (caputEndOf p.2) budget p.2
      (baseMetadata (hierOf p.1) source category status
        (extract_article_id p.2)))).flatten

/-! ### The walking loop: reconstruction and closing condition (claim C3) -/

/-- Total token count of a group of lines (the Python loop sums the per-line
token counts). -/
def sumTok (tok : String → ℕ) (g : List String) : ℕ := (g.map tok).sum

/-- Within a unit, no earlier closing point was admissible: after any
nonempty proper prefix of the unit, the following line still fitted within
the budget (counting the caput's tokens as pre-seeded). -/
def groupOk (budget : ℕ) (tok : String → ℕ) (caputTok : ℕ)
    (g : List String) : Prop :=
  ∀ k, 1 ≤ k → k < g.length →
    caputTok + sumTok tok (g.take k) + tok (g.getD k "") ≤ budget

/-- Consecutive units are separated by a genuine overflow: the caput's
tokens plus the closed unit plus the first line of the next unit exceed the
budget. -/
def boundaryOk (budget : ℕ) (tok : String → ℕ) (caputTok : ℕ)
    (gs : List (List String)) : Prop :=
  ∀ i, i + 1 < gs.length →
    budget < caputTok + sumTok tok (gs.getD i []) +
      tok ((gs.getD (i + 1) []).headD "")

theorem groupLines_nil (budget : ℕ) (tok : String → ℕ) (caputTok : ℕ)
    (acc : List String) (cur : ℕ) :
    groupLines budget tok caputTok [] acc cur =
      if acc = [] then [] else [acc] := rfl

theorem groupLines_cons (budget : ℕ) (tok : String → ℕ) (caputTok : ℕ)
    (l : String) (ls acc : List String) (cur : ℕ) :
    groupLines budget tok caputTok (l :: ls) acc cur =
      if budget < cur + tok l ∧ acc ≠ [] then
        acc :: groupLines budget tok caputTok ls [l] (caputTok + tok l)
      else
        groupLines budget tok caputTok ls (acc ++ [l]) (cur + tok l) := rfl

/-- Concatenating the groups returns every line, in order, exactly once. -/
theorem groupLines_flatten (budget : ℕ) (tok : String → ℕ) (caputTok : ℕ) :
    ∀ (ls acc : List String) (cur : ℕ),
      (groupLines budget tok caputTok ls acc cur).flatten = acc ++ ls := by
  intro ls
  induction ls with
  | nil =>
    intro acc cur
    rw [groupLines_nil]
    by_cases h : acc = []
    · simp [h]
    · simp [h]
  | cons l ls ih =>
    intro acc cur
    rw [groupLines_cons]
    by_cases h : budget < cur + tok l ∧ acc ≠ []
    · rw [if_pos h]
      simp only [List.flatten_cons, ih]
      simp
    · rw [if_neg h, ih]
      simp

/-- Every emitted group is nonempty. -/
theorem groupLines_ne_nil (budget : ℕ) (tok : String → ℕ) (caputTok : ℕ) :
    ∀ (ls acc : List String) (cur : ℕ),
      ∀ g ∈ groupLines budget tok caputTok ls acc cur, g ≠ [] := by
  intro ls
  induction ls with
  | nil =>
    intro acc cur g hg
    rw [groupLines_nil] at hg
    by_cases h : acc = []
    · rw [if_pos h] at hg
      exact absurd hg (List.not_mem_nil g)
    · rw [if_neg h] at hg
      rcases List.mem_singleton.mp hg with rfl
      exact h
  | cons l ls ih =>
    intro acc cur g hg
    rw [groupLines_cons] at hg
    by_cases h : budget < cur + tok l ∧ acc ≠ []
    · rw [if_pos h] at hg
      rcases List.mem_cons.mp hg with rfl | h2
      · exact h.2
      · exact ih [l] _ g h2
    · rw [if_neg h] at hg
      exact ih (acc ++ [l]) _ g hg

/-- The first emitted group extends the current accumulator. -/
theorem groupLines_first (budget : ℕ) (tok : String → ℕ) (caputTok : ℕ) :
    ∀ (ls acc : List String) (cur : ℕ), acc ≠ [] →
      ∃ g rest, groupLines budget tok caputTok ls acc cur =
        (acc ++ g) :: rest := by
  intro ls
  induction ls with
  | nil =>
    intro acc cur h
    refine ⟨[], [], ?_⟩
    rw [groupLines_nil, if_neg h]
    simp
  | cons l ls ih =>
    intro acc cur h
    by_cases hc : budget < cur + tok l ∧ acc ≠ []
    · refine ⟨[], groupLines budget tok caputTok ls [l] (caputTok + tok l), ?_⟩
      rw [groupLines_cons, if_pos hc]
      simp
    · obtain ⟨g, rest, hgr⟩ := ih (acc ++ [l]) (cur + tok l) (by simp)
      refine ⟨[l] ++ g, rest, ?_⟩
      rw [groupLines_cons, if_neg hc, hgr, List.append_assoc]

theorem take_append_left {α : Type} (xs ys : List α) (k : ℕ)
    (h : k ≤ xs.length) : (xs ++ ys).take k = xs.take k := by
  rw [List.take_append_eq_append_take, Nat.sub_eq_zero_of_le h,
    List.take_zero, List.append_nil]

theorem sumTok_append_singleton (tok : String → ℕ) (g : List String)
    (l : String) : sumTok tok (g ++ [l]) = sumTok tok g + tok l := by
  simp [sumTok]

/-- The closing condition of the walking loop, both directions: every group
is internally admissible (no earlier closing point satisfied the overflow
condition) and every boundary between consecutive groups is a genuine
overflow. -/
theorem groupLines_spec (budget : ℕ) (tok : String → ℕ) (caputTok : ℕ) :
    ∀ (ls acc : List String),
      groupOk budget tok caputTok acc →
      (∀ g ∈ groupLines budget tok caputTok ls acc
          (caputTok + sumTok tok acc), groupOk budget tok caputTok g) ∧
      boundaryOk budget tok caputTok
        (groupLines budget tok caputTok ls acc
          (caputTok + sumTok tok acc)) := by
  intro ls
  induction ls with
  | nil =>
    intro acc hOk
    rw [groupLines_nil]
    by_cases h : acc = []
    · rw [if_pos h]
      exact ⟨fun g hg => absurd hg (List.not_mem_nil g),
        fun i hi => absurd hi (by simp)⟩
    · rw [if_neg h]
      refine ⟨fun g hg => ?_, fun i hi => absurd hi (by simp)⟩
      rcases List.mem_singleton.mp hg with rfl
      exact hOk
  | cons l ls ih =>
    intro acc hOk
    rw [groupLines_cons]
    by_cases hc : budget < (caputTok + sumTok tok acc) + tok l ∧ acc ≠ []
    · rw [if_pos hc]
      have hsing : groupOk budget tok caputTok [l] := by
        intro k hk1 hk2
        simp at hk2
        omega
      have hcur : caputTok + tok l = caputTok + sumTok tok [l] := by
        simp [sumTok]
      rw [hcur]
      obtain ⟨hmem, hbound⟩ := ih [l] hsing
      refine ⟨?_, ?_⟩
      · intro g hg
        rcases List.mem_cons.mp hg with rfl | h2
        · exact hOk
        · exact hmem g h2
      · intro i hi
        match i with
        | 0 =>
          obtain ⟨g, rest, hgr⟩ := groupLines_first budget tok caputTok ls
            [l] (caputTok + sumTok tok [l]) (by simp)
          rw [show ((0 : ℕ) + 1) = 1 from rfl]
          rw [List.getD_cons_zero, List.getD_cons_succ, hgr,
            List.getD_cons_zero]
          simpa using hc.1
        | (j + 1) =>
          rw [List.getD_cons_succ, List.getD_cons_succ]
          apply hbound
          simpa using hi
    · rw [if_neg hc]
      have hOk' : groupOk budget tok caputTok (acc ++ [l]) := by
        intro k hk1 hk2
        rw [List.length_append, List.length_singleton] at hk2
        rcases Nat.lt_or_ge k acc.length with hlt | hge
        · rw [take_append_left acc [l] k (le_of_lt hlt),
            List.getD_append acc [l] "" k hlt]
          exact hOk k hk1 hlt
        · have hk : k = acc.length := by omega
          subst hk
          rw [take_append_left acc [l] acc.length (le_refl _),
            List.take_length, List.getD_append_right acc [l] "" acc.length
              (le_refl _), Nat.sub_self, List.getD_cons_zero]
          rcases not_and_or.mp hc with h1 | h2
          · omega
          · exfalso
            apply h2
            intro hacc
            rw [hacc] at hk1
            simp at hk1
      have hcur : caputTok + sumTok tok acc + tok l =
          caputTok + sumTok tok (acc ++ [l]) := by
        rw [sumTok_append_singleton]
        omega
      rw [hcur]
      exact ih (acc ++ [l]) hOk'

theorem splitNl_ne_nil : ∀ cs : List Char, splitNl cs ≠ [] := by
  intro cs
  induction cs with
  | nil => simp [splitNl]
  | cons c cs ih =>
    rw [show splitNl (c :: cs) = if c = ('\n' : Char) then [] :: splitNl cs
        else match splitNl cs with
          | [] => [[c]]
          | g :: gs => (c :: g) :: gs from rfl]
    by_cases h : c = ('\n' : Char)
    · simp [h]
    · rw [if_neg h]
      cases hs : splitNl cs with
      | nil => simp
      | cons g gs => simp

theorem mk_append (a b : List Char) :
    String.mk a ++ String.mk b = String.mk (a ++ b) := rfl

theorem joinLines_cons (l : String) (ls : List String) (h : ls ≠ []) :
    joinLines (l :: ls) = l ++ "\n" ++ joinLines ls := by
  cases ls with
  | nil => exact absurd rfl h
  | cons x xs => rfl

theorem joinLines_append (g h : List String) (hg : g ≠ []) (hh : h ≠ []) :
    joinLines (g ++ h) = joinLines g ++ "\n" ++ joinLines h := by
  induction g with
  | nil => exact absurd rfl hg
  | cons x g ih =>
    cases hgnil : g with
    | nil =>
      subst hgnil
      rw [List.singleton_append, joinLines_cons x h hh]
      rfl
    | cons y g2 =>
      rw [← hgnil]
      have hgne : g ≠ [] := by rw [hgnil]; simp
      rw [List.cons_append, joinLines_cons x (g ++ h) (by
          rw [hgnil]; simp),
        joinLines_cons x g hgne, ih hgne]
      simp [String.append_assoc]

theorem flatten_ne_nil_of_head {α : Type} (g : List α) (gs : List (List α))
    (hg : g ≠ []) : (g :: gs).flatten ≠ [] := by
  rw [List.flatten_cons]
  intro hc
  rcases List.append_eq_nil.mp hc with ⟨h1, _⟩
  exact hg h1

theorem joinLines_map (gs : List (List String))
    (hne : ∀ g ∈ gs, g ≠ []) :
    joinLines (gs.map joinLines) = joinLines gs.flatten := by
  induction gs with
  | nil => rfl
  | cons g gs ih =>
    by_cases hgs : gs = []
    · subst hgs
      simp [joinLines]
    · have hmapne : gs.map joinLines ≠ [] := by
        intro hc
        exact hgs (List.map_eq_nil_iff.mp hc)
      have hflatne : gs.flatten ≠ [] := by
        obtain ⟨g2, gs2, rfl⟩ := List.exists_cons_of_ne_nil hgs
        exact flatten_ne_nil_of_head _ _ (hne _ (by simp))
      rw [List.map_cons, joinLines_cons _ _ hmapne,
        ih (fun g2 hg2 => hne g2 (List.mem_cons_of_mem _ hg2)),
        List.flatten_cons,
        joinLines_append g gs.flatten (hne g (by simp)) hflatne]

theorem joinLines_splitNl : ∀ cs : List Char,
    joinLines ((splitNl cs).map String.mk) = String.mk cs := by
  intro cs
  induction cs with
  | nil => rfl
  | cons c cs ih =>
    rw [show splitNl (c :: cs) = if c = ('\n' : Char) then [] :: splitNl cs
        else match splitNl cs with
          | [] => [[c]]
          | g :: gs => (c :: g) :: gs from rfl]
    by_cases h : c = ('\n' : Char)
    · rw [if_pos h, List.map_cons,
        joinLines_cons _ _ (by simpa using splitNl_ne_nil cs), ih]
      subst h
      rfl
    · rw [if_neg h]
      cases hs : splitNl cs with
      | nil => exact absurd hs (splitNl_ne_nil cs)
      | cons g gs =>
        rw [hs] at ih
        by_cases hgs : gs = []
        · subst hgs
          simp only [List.map_cons, List.map_nil] at ih ⊢
          rw [show joinLines [String.mk g] = String.mk g from rfl] at ih
          rw [show joinLines [String.mk (c :: g)] = String.mk (c :: g)
            from rfl]
          have hgc : g = cs := congrArg String.data ih
          rw [hgc]
        · have hmapne : gs.map String.mk ≠ [] := by
            intro hc
            exact hgs (List.map_eq_nil_iff.mp hc)
          rw [List.map_cons, joinLines_cons _ _ hmapne]
          rw [List.map_cons, joinLines_cons _ _ hmapne,
            String.append_assoc] at ih
          have hsplit : String.mk (c :: g) = String.mk [c] ++ String.mk g := by
            rw [mk_append]
            rfl
          rw [hsplit, String.append_assoc, String.append_assoc, ih]
          rw [show (String.mk cs : String) = String.mk cs from rfl]
          rw [show String.mk [c] ++ String.mk cs = String.mk ([c] ++ cs)
            from mk_append [c] cs]
          rfl

/-- C3: for an over-budget article with a nonempty remainder after the
caput, the groups of accumulated lines emitted by the walking loop
concatenate back to exactly the remainder's lines, in original order with no
duplication — joining the chunks' accumulated-line portions (the text after
the re-injected caput and continuation marker) reconstructs the remainder
text; every group is nonempty; and a unit is closed exactly when adding the
next line would exceed the budget (with the caput's tokens pre-seeded) while
at least one line is accumulated: within every unit no earlier closing point
was admissible, and every boundary between consecutive units is a genuine
overflow. -/
theorem split_long_chunk_reconstruction
    (tok : String → ℕ) (caputEnd : ℕ) (article_text : String) (budget : ℕ)
    (htoks : budget < tok article_text)
    (hrest : restOf caputEnd article_text ≠ "") :
    (splitGroups tok caputEnd article_text budget).flatten =
        splitLines (restOf caputEnd article_text) ∧
      joinLines ((splitGroups tok caputEnd article_text budget).map
          joinLines) = restOf caputEnd article_text ∧
      (∀ g ∈ splitGroups tok caputEnd article_text budget, g ≠ []) ∧
      (∀ g ∈ splitGroups tok caputEnd article_text budget,
        groupOk budget tok (tok (caputOf caputEnd article_text)) g) ∧
      boundaryOk budget tok (tok (caputOf caputEnd article_text))
        (splitGroups tok caputEnd article_text budget) := by
  have hcur : tok (caputOf caputEnd article_text) =
      tok (caputOf caputEnd article_text) + sumTok tok [] := by
    simp [sumTok]
  have hOkNil : groupOk budget tok (tok (caputOf caputEnd article_text))
      ([] : List String) := by
    intro k hk1 hk2
    simp at hk2
  have hflat : (splitGroups tok caputEnd article_text budget).flatten =
      splitLines (restOf caputEnd article_text) := by
    unfold splitGroups
    rw [groupLines_flatten]
    simp
  refine ⟨hflat, ?_, ?_, ?_, ?_⟩
  · have hne : ∀ g ∈ splitGroups tok caputEnd article_text budget,
        g ≠ [] := by
      unfold splitGroups
      exact groupLines_ne_nil budget tok _ _ [] _
    rw [joinLines_map _ hne, hflat]
    unfold splitLines
    rw [joinLines_splitNl]
  · unfold splitGroups
    exact groupLines_ne_nil budget tok _ _ [] _
  · unfold splitGroups
    rw [hcur]
    exact (groupLines_spec budget tok _ _ [] hOkNil).1
  · unfold splitGroups
    rw [hcur]
    exact (groupLines_spec budget tok _ _ [] hOkNil).2

theorem split_long_chunk_reconstruction_witness :
    12 < String.length "Art. 1 - x\nA\nB\nC" ∧
      restOf 10 "Art. 1 - x\nA\nB\nC" ≠ "" ∧
      ((splitGroups String.length 10 "Art. 1 - x\nA\nB\nC" 12).flatten =
          splitLines (restOf 10 "Art. 1 - x\nA\nB\nC") ∧
        joinLines ((splitGroups String.length 10 "Art. 1 - x\nA\nB\nC"
            12).map joinLines) = restOf 10 "Art. 1 - x\nA\nB\nC" ∧
        (∀ g ∈ splitGroups String.length 10 "Art. 1 - x\nA\nB\nC" 12,
          g ≠ []) ∧
        (∀ g ∈ splitGroups String.length 10 "Art. 1 - x\nA\nB\nC" 12,
          groupOk 12 String.length
            (String.length (caputOf 10 "Art. 1 - x\nA\nB\nC")) g) ∧
        boundaryOk 12 String.length
          (String.length (caputOf 10 "Art. 1 - x\nA\nB\nC"))
          (splitGroups String.length 10 "Art. 1 - x\nA\nB\nC" 12)) :=
  ⟨by decide, by decide,
    split_long_chunk_reconstruction String.length 10 "Art. 1 - x\nA\nB\nC" 12
      (by decide) (by decide)⟩

/-- C4: an article within the token budget yields exactly one chunk, whose
content is the article text verbatim, with `chunk_index = 0` and
`is_child_chunk = false`; and when the walking loop of the splitter never
crosses a unit boundary (a single group), the emitted unit is the original
unsplit article text verbatim, with no caput prefix or continuation
marker. -/
theorem chunk_within_budget
    (tok : String → ℕ) (caputEnd : ℕ) (budget : ℕ) (article : String)
    (hier : List String) (src cat st aid : String)
    (hsmall : tok article ≤ budget)
    (article2 : String) (caputEnd2 : ℕ) (meta2 : ChunkMetadata)
    (hrest2 : restOf caputEnd2 article2 ≠ "")
    (hone : (splitGroups tok caputEnd2 article2 budget).length = 1) :
    processArticle tok caputEnd budget article
        (baseMetadata hier src cat st aid) =
      [⟨article, baseMetadata hier src cat st aid⟩] ∧
    (baseMetadata hier src cat st aid).chunk_index = 0 ∧
    (baseMetadata hier src cat st aid).is_child_chunk = false ∧
    split_long_chunk tok caputEnd2 article2 meta2 budget =
      [⟨article2, mkSplitMeta meta2 0⟩] ∧
    (mkSplitMeta meta2 0).chunk_index = 0 ∧
    (mkSplitMeta meta2 0).is_child_chunk = false := by
  refine ⟨?_, rfl, rfl, ?_, rfl, rfl⟩
  · unfold processArticle
    rw [if_neg (by omega)]
  · unfold split_long_chunk
    rw [if_neg hrest2]
    obtain ⟨g, hg⟩ := List.length_eq_one.mp hone
    rw [hg]
    rfl

theorem chunk_within_budget_witness :
    String.length "Art. 2 - y" ≤ 100 ∧
      restOf 10 "Art. 1 - x\nA" ≠ "" ∧
      (splitGroups String.length 10 "Art. 1 - x\nA" 100).length = 1 ∧
      (processArticle String.length 5 100 "Art. 2 - y"
          (baseMetadata [] "doc" "res" "vigente" "Art. 2") =
        [⟨"Art. 2 - y", baseMetadata [] "doc" "res" "vigente" "Art. 2"⟩] ∧
      (baseMetadata [] "doc" "res" "vigente" "Art. 2").chunk_index = 0 ∧
      (baseMetadata [] "doc" "res" "vigente" "Art. 2").is_child_chunk =
        false ∧
      split_long_chunk String.length 10 "Art. 1 - x\nA"
          (baseMetadata [] "doc" "res" "vigente" "Art. 1") 100 =
        [⟨"Art. 1 - x\nA",
          mkSplitMeta (baseMetadata [] "doc" "res" "vigente" "Art. 1") 0⟩] ∧
      (mkSplitMeta (baseMetadata [] "doc" "res" "vigente" "Art. 1")
          0).chunk_index = 0 ∧
      (mkSplitMeta (baseMetadata [] "doc" "res" "vigente" "Art. 1")
          0).is_child_chunk = false) :=
  ⟨by decide, by decide, by decide,
    chunk_within_budget String.length 5 100 "Art. 2 - y" [] "doc" "res"
      "vigente" "Art. 2" (by decide) "Art. 1 - x\nA" 10
      (baseMetadata [] "doc" "res" "vigente" "Art. 1") (by decide)
      (by decide)⟩

/-! ### Chunk-index invariants (claim C6) -/

/-- The chunks of a single article block carry contiguous `chunk_index`
values starting at 0, `is_child_chunk` holds exactly for positive indices,
and every chunk keeps the block's source and article id. -/
theorem processArticle_block_invariants
    (tok : String → ℕ) (caputEnd budget : ℕ) (article : String)
    (meta : ChunkMetadata) (h0 : meta.chunk_index = 0)
    (h1 : meta.is_child_chunk = false) :
    ((processArticle tok caputEnd budget article meta).map
        (fun c => c.metadata.chunk_index) =
      List.range (processArticle tok caputEnd budget article meta).length) ∧
    ∀ c ∈ processArticle tok caputEnd budget article meta,
      c.metadata.is_child_chunk = decide (0 < c.metadata.chunk_index) ∧
      c.metadata.source = meta.source ∧
      c.metadata.article_id = meta.article_id := by
  unfold processArticle
  by_cases hb : budget < tok article
  · rw [if_pos hb]
    unfold split_long_chunk
    by_cases hr : restOf caputEnd article = ""
    · rw [if_pos hr]
      refine ⟨rfl, ?_⟩
      intro c hc
      rcases List.mem_singleton.mp hc with rfl
      exact ⟨by simp [h0, h1], rfl, rfl⟩
    · rw [if_neg hr]
      constructor
      · rw [List.map_map, List.length_map, List.enum_length]
        have hmap : ((splitGroups tok caputEnd article budget).enum.map
            ((fun c => c.metadata.chunk_index) ∘ (fun p =>
              if (splitGroups tok caputEnd article budget).length = 1 then
                (⟨article, mkSplitMeta meta 0⟩ : LegalChunk)
              else
                ⟨contChunkContent (caputOf caputEnd article) p.2,
                  mkSplitMeta meta p.1⟩))) =
            (splitGroups tok caputEnd article budget).enum.map Prod.fst := by
          apply List.map_congr_left
          intro p hp
          by_cases hone : (splitGroups tok caputEnd article budget).length = 1
          · obtain ⟨g, hg⟩ := List.length_eq_one.mp hone
            rw [hg] at hp
            have : p = (0, g) := by simpa using hp
            subst this
            simp [hone, mkSplitMeta]
          · simp [hone, mkSplitMeta]
        rw [hmap, List.enum_map_fst]
      · intro c hc
        rcases List.mem_map.mp hc with ⟨p, hp, hpc⟩
        by_cases hone : (splitGroups tok caputEnd article budget).length = 1
        · rw [if_pos hone] at hpc
          subst hpc
          exact ⟨rfl, rfl, rfl⟩
        · rw [if_neg hone] at hpc
          subst hpc
          exact ⟨rfl, rfl, rfl⟩
  · rw [if_neg hb]
    refine ⟨by simp [h0]; decide, ?_⟩
    intro c hc
    rcases List.mem_singleton.mp hc with rfl
    exact ⟨by simp [h0, h1], rfl, rfl⟩

/-- The chunks of a corpus belonging to one `(source, article_id)` pair. -/
def chunksFor (chunks : List LegalChunk) (src aid : String) :
    List LegalChunk :=
  chunks.filter (fun c =>
    c.metadata.source = src ∧ c.metadata.article_id = aid)

/-- For a pair `(src, aid)`, either no chunk of the document matches, or —
when distinct blocks of the document have pairwise distinct article ids —
the matching chunks are exactly the chunks of the unique block whose
extracted article id is `aid`. -/
theorem chunksFor_chunk_document
    (tok : String → ℕ) (caputEndOf : String → ℕ) (hierOf : ℕ → List String)
    (source category status : String) (budget : ℕ) (src aid : String) :
    ∀ (arts : List (ℕ × String)),
      (arts.map (fun p => extract_article_id p.2)).Nodup →
      chunksFor (chunk_document tok caputEndOf hierOf arts source category
        status budget) src aid = [] ∨
      ∃ q ∈ arts, extract_article_id q.2 = aid ∧ src = source ∧
        chunksFor (chunk_document tok caputEndOf hierOf arts source category
          status budget) src aid =
          processArticle tok (caputEndOf q.2) budget q.2
            (baseMetadata (hierOf q.1) source category status aid) := by
  intro arts
  induction arts with
  | nil =>
    intro _
    left
    rfl
  | cons q arts ih =>
    intro hnd
    simp only [List.map_cons, List.nodup_cons] at hnd
    have hsplit : chunk_document tok caputEndOf hierOf (q :: arts) source
        category status budget =
      processArticle tok (caputEndOf q.2) budget q.2
        (baseMetadata (hierOf q.1) source category status
          (extract_article_id q.2)) ++
      chunk_document tok caputEndOf hierOf arts source category status
        budget := by
      unfold chunk_document
      rw [List.map_cons, List.flatten_cons]
    have hqprops := (processArticle_block_invariants tok (caputEndOf q.2)
      budget q.2 (baseMetadata (hierOf q.1) source category status
        (extract_article_id q.2)) rfl rfl).2
    by_cases hcond : src = source ∧ extract_article_id q.2 = aid
    · right
      refine ⟨q, by simp, hcond.2, hcond.1, ?_⟩
      unfold chunksFor
      rw [hsplit, List.filter_append]
      have hblock : (processArticle tok (caputEndOf q.2) budget q.2
          (baseMetadata (hierOf q.1) source category status
            (extract_article_id q.2))).filter (fun c =>
              c.metadata.source = src ∧ c.metadata.article_id = aid) =
          processArticle tok (caputEndOf q.2) budget q.2
            (baseMetadata (hierOf q.1) source category status
              (extract_article_id q.2)) := by
        apply List.filter_eq_self.mpr
        intro c hc
        obtain ⟨_, hsrc, haid⟩ := hqprops c hc
        simp only [hsrc, haid]
        simp [baseMetadata, hcond.1, hcond.2]
      have hrest : (chunk_document tok caputEndOf hierOf arts source
          category status budget).filter (fun c =>
            c.metadata.source = src ∧ c.metadata.article_id = aid) = [] := by
        apply List.filter_eq_nil_iff.mpr
        intro c hc
        unfold chunk_document at hc
        rcases List.mem_flatten.mp hc with ⟨block, hblockmem, hcb⟩
        rcases List.mem_map.mp hblockmem with ⟨q', hq', hq'block⟩
        subst hq'block
        obtain ⟨_, _, haid⟩ := (processArticle_block_invariants tok
          (caputEndOf q'.2) budget q'.2 (baseMetadata (hierOf q'.1) source
            category status (extract_article_id q'.2)) rfl rfl).2 c hcb
        simp only [haid, baseMetadata]
        intro hp
        rcases of_decide_eq_true hp with ⟨_, hpaid⟩
        apply hnd.1
        rw [show extract_article_id q.2 = extract_article_id q'.2 from by
          rw [hcond.2, ← hpaid]]
        exact List.mem_map_of_mem _ hq'
      rw [hblock, hrest, List.append_nil, hcond.2]
    · have hblock : (processArticle tok (caputEndOf q.2) budget q.2
          (baseMetadata (hierOf q.1) source category status
            (extract_article_id q.2))).filter (fun c =>
              c.metadata.source = src ∧ c.metadata.article_id = aid) = [] := by
        apply List.filter_eq_nil_iff.mpr
        intro c hc
        obtain ⟨_, hsrc, haid⟩ := hqprops c hc
        simp only [hsrc, haid, baseMetadata]
        intro hp
        rcases of_decide_eq_true hp with ⟨hpsrc, hpaid⟩
        exact hcond ⟨hpsrc.symm, hpaid⟩
      have heq : chunksFor (chunk_document tok caputEndOf hierOf (q :: arts)
          source category status budget) src aid =
        chunksFor (chunk_document tok caputEndOf hierOf arts source category
          status budget) src aid := by
        unfold chunksFor
        rw [hsplit, List.filter_append, hblock, List.nil_append]
      rw [heq]
      rcases ih hnd.2 with h | ⟨q', hq', h1, h2, h3⟩
      · exact Or.inl h
      · exact Or.inr ⟨q', List.mem_cons_of_mem _ hq', h1, h2, h3⟩

theorem countP_zero_range (n : ℕ) (hn : 0 < n) :
    List.countP (fun k => decide (k = 0)) (List.range n) = 1 := by
  induction n with
  | zero => omega
  | succ m ih =>
    rw [List.range_succ, List.countP_append]
    by_cases hm : m = 0
    · subst hm
      decide
    · rw [ih (Nat.pos_of_ne_zero hm)]
      have h2 : List.countP (fun k => decide (k = 0)) [m] = 0 := by
        simp [hm]
      omega

/-- C6 (amended): when the article blocks of a document have pairwise
distinct extracted article ids, then for every `(source, article_id)` pair
occurring among the document's chunks, the `chunk_index` values of the
chunks with that pair are contiguous starting at 0, exactly one such chunk
has `chunk_index = 0`, and `is_child_chunk` holds exactly when
`chunk_index > 0`. -/
theorem chunk_document_chunk_index_invariant
    (tok : String → ℕ) (caputEndOf : String → ℕ) (hierOf : ℕ → List String)
    (articles : List (ℕ × String)) (source category status : String)
    (budget : ℕ)
    (hids : (articles.map (fun p => extract_article_id p.2)).Nodup) :
    ∀ src aid,
      chunksFor (chunk_document tok caputEndOf hierOf articles source
        category status budget) src aid ≠ [] →
      (chunksFor (chunk_document tok caputEndOf hierOf articles source
          category status budget) src aid).map
          (fun c => c.metadata.chunk_index) =
        List.range (chunksFor (chunk_document tok caputEndOf hierOf articles
          source category status budget) src aid).length ∧
      ((chunksFor (chunk_document tok caputEndOf hierOf articles source
          category status budget) src aid).filter
        (fun c => c.metadata.chunk_index = 0)).length = 1 ∧
      ∀ c ∈ chunksFor (chunk_document tok caputEndOf hierOf articles source
          category status budget) src aid,
        c.metadata.is_child_chunk = decide (0 < c.metadata.chunk_index) := by
  intro src aid hne
  rcases chunksFor_chunk_document tok caputEndOf hierOf source category
    status budget src aid articles hids with h | ⟨q, _, _, _, h3⟩
  · exact absurd h hne
  · rw [h3] at hne ⊢
    obtain ⟨hrange, hprops⟩ := processArticle_block_invariants tok
      (caputEndOf q.2) budget q.2
      (baseMetadata (hierOf q.1) source category status aid) rfl rfl
    refine ⟨hrange, ?_, fun c hc => (hprops c hc).1⟩
    have hlen : 0 < (processArticle tok (caputEndOf q.2) budget q.2
        (baseMetadata (hierOf q.1) source category status aid)).length :=
      List.length_pos.mpr hne
    rw [← List.countP_eq_length_filter]
    have hcnt : List.countP (fun k => decide (k = 0))
        ((processArticle tok (caputEndOf q.2) budget q.2
          (baseMetadata (hierOf q.1) source category status aid)).map
            (fun c => c.metadata.chunk_index)) =
        List.countP ((fun k => decide (k = 0)) ∘
          (fun c => c.metadata.chunk_index))
          (processArticle tok (caputEndOf q.2) budget q.2
            (baseMetadata (hierOf q.1) source category status aid)) :=
      List.countP_map _ _ _
    have hcnt2 : List.countP ((fun k => decide (k = 0)) ∘
        (fun c => c.metadata.chunk_index))
        (processArticle tok (caputEndOf q.2) budget q.2
          (baseMetadata (hierOf q.1) source category status aid)) =
        List.countP (fun c => decide (c.metadata.chunk_index = 0))
          (processArticle tok (caputEndOf q.2) budget q.2
            (baseMetadata (hierOf q.1) source category status aid)) := rfl
    rw [← hcnt2, ← hcnt, hrange]
    exact countP_zero_range _ hlen

/-- C6 fails as stated: a document whose article pattern matches two blocks
with the same article number (here two lines both starting with the marker
of article 1) produces two chunks with the same `(source, article_id)` pair
both carrying `chunk_index = 0`. -/
theorem chunk_document_duplicate_id_counterexample :
    ((chunksFor (chunk_document String.length (fun s => s.length)
        (fun _ => []) [(0, "Art. 1 - x"), (11, "Art. 1 - y")]
        "doc" "res" "vigente" 512) "doc" "Art. 1").filter
      (fun c => c.metadata.chunk_index = 0)).length ≠ 1 := by
  decide

theorem chunk_document_chunk_index_invariant_witness :
    (([(0, "Art. 1 - x"), (11, "Art. 2 - y")].map
        (fun p => extract_article_id p.2)).Nodup : Prop) ∧
      ∀ src aid,
        chunksFor (chunk_document String.length (fun s => s.length)
          (fun _ => []) [(0, "Art. 1 - x"), (11, "Art. 2 - y")]
          "doc" "res" "vigente" 512) src aid ≠ [] →
        (chunksFor (chunk_document String.length (fun s => s.length)
            (fun _ => []) [(0, "Art. 1 - x"), (11, "Art. 2 - y")]
            "doc" "res" "vigente" 512) src aid).map
            (fun c => c.metadata.chunk_index) =
          List.range (chunksFor (chunk_document String.length
            (fun s => s.length) (fun _ => []) [(0, "Art. 1 - x"),
            (11, "Art. 2 - y")] "doc" "res" "vigente" 512) src aid).length ∧
        ((chunksFor (chunk_document String.length (fun s => s.length)
            (fun _ => []) [(0, "Art. 1 - x"), (11, "Art. 2 - y")]
            "doc" "res" "vigente" 512) src aid).filter
          (fun c => c.metadata.chunk_index = 0)).length = 1 ∧
        ∀ c ∈ chunksFor (chunk_document String.length (fun s => s.length)
            (fun _ => []) [(0, "Art. 1 - x"), (11, "Art. 2 - y")]
            "doc" "res" "vigente" 512) src aid,
          c.metadata.is_child_chunk = decide (0 < c.metadata.chunk_index) :=
  ⟨by decide,
    chunk_document_chunk_index_invariant String.length (fun s => s.length)
      (fun _ => []) [(0, "Art. 1 - x"), (11, "Art. 2 - y")]
      "doc" "res" "vigente" 512 (by decide)⟩

/-- `split_into_articles` (lines 151-182) over the document's characters,
with the article-marker match positions (produced by the external regex
engine from `ARTICLE_PATTERN`) as a parameter: no markers yields the whole
stripped document at position 0; otherwise the stripped text before the
first marker becomes a preamble block when longer than 50 characters, and
each marker yields a block from its position to the next marker (or the end
of the document), stripped, empty blocks dropped. -/
def split_into_articles (text : List Char) (ms : List ℕ) :
    List (ℕ × List Char) :=
  match ms with
  | [] => [(0, stripChars text)]
  | m0 :: _ =>
      (if stripChars (text.take m0) ≠ [] ∧
          50 < (stripChars (text.take m0)).length
       then [(0, stripChars (text.take m0))] else []) ++
      ((ms.enum.map (fun p =>
          (p.2, stripChars ((text.take
            (ms.getD (p.1 + 1) text.length)).drop p.2)))).filter
        (fun b => b.2 ≠ []))

/-! ### Article segmentation covers the document (claim C5) -/

theorem stripChars_ne_nil (cs : List Char) (c : Char) (hc : c ∈ cs)
    (hw : ¬ c.isWhitespace) : stripChars cs ≠ [] := by
  intro hnil
  unfold stripChars at hnil
  have h1 : (cs.dropWhile Char.isWhitespace).reverse.dropWhile
      Char.isWhitespace = [] := by
    have := congrArg List.reverse hnil
    simpa using this
  have h2 : ∀ x ∈ (cs.dropWhile Char.isWhitespace).reverse,
      Char.isWhitespace x = true := List.dropWhile_eq_nil_iff.mp h1
  have h3 : ∀ x ∈ cs.dropWhile Char.isWhitespace,
      Char.isWhitespace x = true := by
    intro x hx
    exact h2 x (List.mem_reverse.mpr hx)
  have h4 : ∀ x ∈ cs, Char.isWhitespace x = true := by
    intro x hx
    rw [← List.takeWhile_append_dropWhile (p := Char.isWhitespace)
      (l := cs)] at hx
    rcases List.mem_append.mp hx with h | h
    · exact List.mem_takeWhile_imp h
    · exact h3 x h
  exact hw (h4 c hc)

/-- C5: under a sound matcher (strictly increasing positions, each within
the document and pointing at a non-whitespace character — true of every
`ARTICLE_PATTERN` match, which starts with a hash, an asterisk or the letter
A at the start of a line), `split_into_articles` returns the whole stripped
document as a single block at position 0 when there are no markers; and
otherwise exactly one stripped nonempty block per marker, in document order,
each starting at its marker position and extending to the next marker (or
the end of the document), preceded by a preamble block exactly when the
stripped text before the first marker exceeds 50 characters. -/
theorem split_into_articles_spec (text : List Char) (ms : List ℕ)
    (hchain : List.Chain' (· < ·) ms)
    (hlt : ∀ m ∈ ms, m < text.length)
    (hws : ∀ m ∈ ms, ¬ (text.getD m ' ').isWhitespace) :
    (ms = [] → split_into_articles text ms = [(0, stripChars text)]) ∧
    (ms ≠ [] →
      split_into_articles text ms =
        (if 50 < (stripChars (text.take (ms.headD 0))).length
         then [(0, stripChars (text.take (ms.headD 0)))] else []) ++
        ms.enum.map (fun p =>
          (p.2, stripChars ((text.take
            (ms.getD (p.1 + 1) text.length)).drop p.2))) ∧
      ∀ b ∈ split_into_articles text ms, b.2 ≠ []) := by
  have hpw : List.Pairwise (· < ·) ms := List.chain'_iff_pairwise.mp hchain
  have hblock : ∀ p ∈ ms.enum,
      stripChars ((text.take (ms.getD (p.1 + 1) text.length)).drop p.2) ≠
        [] := by
    intro p hp
    have hget : ms[p.1]? = some p.2 := by
      have : (p.1, p.2) ∈ ms.enum := by simpa using hp
      exact List.mk_mem_enum_iff_getElem?.mp this
    obtain ⟨hplen, hpval⟩ := List.getElem?_eq_some_iff.mp hget
    have hmem : p.2 ∈ ms := hpval ▸ List.getElem_mem hplen
    have hstart : p.2 < text.length := hlt p.2 hmem
    have hstop : p.2 < ms.getD (p.1 + 1) text.length := by
      by_cases hnext : p.1 + 1 < ms.length
      · rw [List.getD_eq_getElem ms text.length hnext]
        rw [← hpval]
        exact List.pairwise_iff_getElem.mp hpw p.1 (p.1 + 1) hplen hnext
          (Nat.lt_succ_self p.1)
      · rw [List.getD_eq_default ms text.length (Nat.le_of_not_lt hnext)]
        exact hstart
    have hlen : 0 < ((text.take (ms.getD (p.1 + 1) text.length)).drop
        p.2).length := by
      rw [List.length_drop, List.length_take]
      omega
    have hval : ((text.take (ms.getD (p.1 + 1) text.length)).drop
        p.2)[0] = text[p.2] := by
      rw [List.getElem_drop, List.getElem_take]
      simp
    apply stripChars_ne_nil _ (text.getD p.2 ' ')
    · rw [List.getD_eq_getElem text ' ' hstart, ← hval]
      exact List.getElem_mem hlen
    · exact hws p.2 hmem
  constructor
  · intro h
    subst h
    rfl
  · intro hne
    obtain ⟨m0, tl, rfl⟩ := List.exists_cons_of_ne_nil hne
    have hfilter : ((m0 :: tl).enum.map (fun p =>
        (p.2, stripChars ((text.take
          ((m0 :: tl).getD (p.1 + 1) text.length)).drop p.2)))).filter
        (fun b => b.2 ≠ []) =
        (m0 :: tl).enum.map (fun p =>
          (p.2, stripChars ((text.take
            ((m0 :: tl).getD (p.1 + 1) text.length)).drop p.2))) := by
      apply List.filter_eq_self.mpr
      intro b hb
      rcases List.mem_map.mp hb with ⟨p, hp, hpb⟩
      subst hpb
      simpa using hblock p hp
    have hpre : (if stripChars (text.take m0) ≠ [] ∧
          50 < (stripChars (text.take m0)).length
        then [((0 : ℕ), stripChars (text.take m0))] else []) =
        (if 50 < (stripChars (text.take ((m0 :: tl).headD 0))).length
         then [((0 : ℕ), stripChars (text.take ((m0 :: tl).headD 0)))]
         else []) := by
      rw [show (m0 :: tl).headD 0 = m0 from rfl]
      by_cases h : 50 < (stripChars (text.take m0)).length
      · have hne2 : stripChars (text.take m0) ≠ [] := by
          intro hnil
          rw [hnil] at h
          simp at h
        rw [if_pos ⟨hne2, h⟩, if_pos h]
      · rw [if_neg h, if_neg (fun hc => h hc.2)]
    have hunfold : split_into_articles text (m0 :: tl) =
        (if stripChars (text.take m0) ≠ [] ∧
            50 < (stripChars (text.take m0)).length
         then [((0 : ℕ), stripChars (text.take m0))] else []) ++
        (((m0 :: tl).enum.map (fun p =>
            (p.2, stripChars ((text.take
              ((m0 :: tl).getD (p.1 + 1) text.length)).drop p.2)))).filter
          (fun b => b.2 ≠ [])) := rfl
    constructor
    · rw [hunfold, hfilter, hpre]
    · intro b hb
      rw [hunfold] at hb
      rcases List.mem_append.mp hb with h | h
      · by_cases hcond : stripChars (text.take m0) ≠ [] ∧
            50 < (stripChars (text.take m0)).length
        · rw [if_pos hcond] at h
          rcases List.mem_singleton.mp h with rfl
          exact hcond.1
        · rw [if_neg hcond] at h
          exact absurd h (List.not_mem_nil b)
      · rcases List.mem_filter.mp h with ⟨hmem, hne2⟩
        simpa using hne2

/-- A three-line fixture document: a short preamble and two articles, whose
marker positions are 6 and 15. -/
def fxDoc : List Char := "Intro\nArt. 1 a\nArt. 2 b".toList

theorem split_into_articles_spec_witness :
    List.Chain' (· < ·) [6, 15] ∧
      (∀ m ∈ [6, 15], m < fxDoc.length) ∧
      (∀ m ∈ [6, 15], ¬ (fxDoc.getD m ' ').isWhitespace) ∧
      (([6, 15] = ([] : List ℕ) →
        split_into_articles fxDoc [6, 15] = [(0, stripChars fxDoc)]) ∧
      ([6, 15] ≠ ([] : List ℕ) →
        split_into_articles fxDoc [6, 15] =
          (if 50 < (stripChars (fxDoc.take ([6, 15].headD 0))).length
           then [(0, stripChars (fxDoc.take ([6, 15].headD 0)))] else []) ++
          [6, 15].enum.map (fun p =>
            (p.2, stripChars ((fxDoc.take
              ([6, 15].getD (p.1 + 1) fxDoc.length)).drop p.2))) ∧
        ∀ b ∈ split_into_articles fxDoc [6, 15], b.2 ≠ [])) :=
  ⟨List.chain'_cons.mpr ⟨by decide, List.chain'_singleton 15⟩, by decide,
    by decide,
    split_into_articles_spec fxDoc [6, 15]
      (List.chain'_cons.mpr ⟨by decide, List.chain'_singleton 15⟩)
      (by decide) (by decide)⟩

/-! ## Revocation classifier (`revocation_filter.py`) -/

/-- The `RevocationInfo` dataclass. -/
structure RevocationInfo where
  is_revoked : Bool
  revoked_by_filename : Bool
  revocation_markers : List String
  status : String
deriving DecidableEq, Repr

/-- Whether `pat` occurs at the start of the text. -/
def startsWithPat : List Char → List Char → Bool
  | [], _ => true
  | _ :: _, [] => false
  | p :: ps, c :: cs => p == c && startsWithPat ps cs

/-- Whether `pat` occurs anywhere in the text (a literal substring search). -/
def containsPat (pat : List Char) : List Char → Bool
  | [] => pat.isEmpty
  | c :: cs => startsWithPat pat (c :: cs) || containsPat pat cs

/-- `check_filename_revocation` (lines 40-42): case-insensitive search for
`REVOGAD[OA]` anywhere in the filename stem. -/
def check_filename_revocation (stem : String) : Bool :=
  containsPat ("REVOGADO".data) (stem.data.map Char.toUpper) ||
  containsPat ("REVOGADA".data) (stem.data.map Char.toUpper)

/-- `analyze_revocation` (lines 60-90).  The content markers are the output
of `check_content_revocation`, a scan over the document text by the external
regex engine with `REVOCATION_PATTERNS`; that list is a parameter here.  The
verdict uses the filename exclusively (`is_revoked = by_filename`, the
source comments calling the filename the authoritative signal). -/
def analyze_revocation (stem : String) (markers : List String) :
    RevocationInfo :=
  let by_filename := check_filename_revocation stem
  { is_revoked := by_filename,
    revoked_by_filename := by_filename,
    revocation_markers := markers,
    status := if by_filename then "revogado" else "vigente" }

/-- C7: the revocation verdict is the filename check exclusively — whatever
content markers were collected, `is_revoked` and `revoked_by_filename` both
equal the case-insensitive `REVOGADA`/`REVOGADO` filename-stem match, the
status is `"revogado"` exactly when that match succeeds (and `"vigente"`
otherwise), and the markers are recorded untouched without influencing the
verdict. -/
theorem analyze_revocation_filename_only (stem : String)
    (markers : List String) :
    (analyze_revocation stem markers).is_revoked =
        check_filename_revocation stem ∧
      (analyze_revocation stem markers).revoked_by_filename =
        check_filename_revocation stem ∧
      ((analyze_revocation stem markers).status = "revogado" ↔
        check_filename_revocation stem = true) ∧
      ((analyze_revocation stem markers).status = "vigente" ↔
        check_filename_revocation stem = false) ∧
      (analyze_revocation stem markers).revocation_markers = markers ∧
      ∀ markers2 : List String,
        (analyze_revocation stem markers2).is_revoked =
            (analyze_revocation stem markers).is_revoked ∧
          (analyze_revocation stem markers2).status =
            (analyze_revocation stem markers).status := by
  refine ⟨rfl, rfl, ?_, ?_, rfl, fun m2 => ⟨rfl, rfl⟩⟩
  · by_cases h : check_filename_revocation stem
    · simp [analyze_revocation, h]
    · simp [analyze_revocation, h]
  · by_cases h : check_filename_revocation stem
    · simp [analyze_revocation, h]
    · simp [analyze_revocation, h]

/-! ## Reranker (`reranker.py`)

The CrossEncoder relevance model is external: `model query content` stands
for the score `model.predict` assigns to the pair.  The surrounding
orchestration of `rerank` — early return on an empty candidate list,
re-scoring, stable descending sort, optional threshold filter, truncation,
and the final logging statement that indexes the filtered score list — is
embedded below; fallible indexing is an `Except`. -/

/-- The comparison of `scored_results.sort(key=lambda x: x[0], reverse=True)`. -/
def rerankGE (a b : ℚ × SearchResult) : Prop := b.1 ≤ a.1

instance : DecidableRel rerankGE :=
  fun a b => inferInstanceAs (Decidable (b.1 ≤ a.1))

instance : IsTotal (ℚ × SearchResult) rerankGE := ⟨fun a b => le_total b.1 a.1⟩

instance : IsTrans (ℚ × SearchResult) rerankGE :=
  ⟨fun _ _ _ h1 h2 => le_trans h2 h1⟩

/-- Python list indexing `l[i]`: negative indices count from the end,
out-of-range indices are `IndexError` (`none`). -/
def pyIdx {α : Type} (l : List α) (i : ℤ) : Option α :=
  if 0 ≤ i then l[i.toNat]?
  else if 0 ≤ i + l.length then l[(i + l.length).toNat]?
  else none

/-- The `(score, reranked_result)` pairs of `rerank` (lines 62-76). -/
def rerankScored (model : String → String → ℚ) (query : String)
    (candidates : List SearchResult) : List (ℚ × SearchResult) :=
  candidates.map (fun c =>
    (model query c.content,
      { content := c.content, metadata := c.metadata,
        score := model query c.content, source := "reranked" }))

/-- The pairs after the stable descending sort and the optional threshold
filter (`s >= score_threshold` keeps the pair), lines 78-85. -/
def rerankFiltered (model : String → String → ℚ) (query : String)
    (candidates : List SearchResult)
    (score_threshold : Option ℚ) : List (ℚ × SearchResult) :=
  match score_threshold with
  | some t =>
      ((rerankScored model query candidates).insertionSort
        rerankGE).filter (fun p => t ≤ p.1)
  | none => (rerankScored model query candidates).insertionSort rerankGE

/-- `rerank` (lines 34-95): empty candidates short-circuit to `[]`; else the
candidates are re-scored, sorted descending, threshold-filtered and
truncated to `top_k`; the final logging statement indexes the filtered
score list at `0` and at `min(top_k - 1, len - 1)`, raising `IndexError`
when out of range. -/
def rerank (model : String → String → ℚ) (query : String)
    (candidates : List SearchResult) (top_k : ℕ)
    (score_threshold : Option ℚ) : Except String (List SearchResult) :=
  if candidates.isEmpty then Except.ok []
  else
    match pyIdx (rerankFiltered model query candidates score_threshold) 0,
      pyIdx (rerankFiltered model query candidates score_threshold)
        (min ((top_k : ℤ) - 1)
          (((rerankFiltered model query candidates
            score_threshold).length : ℤ) - 1)) with
    | some _, some _ =>
        Except.ok (((rerankFiltered model query candidates
          score_threshold).take top_k).map (fun p => p.2))
    | _, _ => Except.error "IndexError"

/-! ### Reranker lemmas (claims C9, C10) -/

theorem rerankScored_props (model : String → String → ℚ) (query : String)
    (candidates : List SearchResult) :
    ∀ p ∈ rerankScored model query candidates,
      p.2.score = p.1 ∧ p.2.source = "reranked" ∧
        ∃ c ∈ candidates, p.2.content = c.content ∧
          p.2.metadata = c.metadata ∧ p.1 = model query c.content := by
  intro p hp
  rcases List.mem_map.mp hp with ⟨c, hc, hcp⟩
  subst hcp
  exact ⟨rfl, rfl, c, hc, rfl, rfl, rfl⟩

theorem rerankFiltered_sub (model : String → String → ℚ) (query : String)
    (candidates : List SearchResult) (th : Option ℚ) :
    ∀ p ∈ rerankFiltered model query candidates th,
      p ∈ rerankScored model query candidates := by
  intro p hp
  cases th with
  | none =>
    exact (List.perm_insertionSort rerankGE _).mem_iff.mp hp
  | some t =>
    exact (List.perm_insertionSort rerankGE _).mem_iff.mp
      (List.mem_of_mem_filter hp)

theorem rerankFiltered_sorted (model : String → String → ℚ) (query : String)
    (candidates : List SearchResult) (th : Option ℚ) :
    (rerankFiltered model query candidates th).Pairwise rerankGE := by
  cases th with
  | none => exact List.sorted_insertionSort rerankGE _
  | some t =>
    exact (List.sorted_insertionSort rerankGE _).filter _

theorem rerankFiltered_thr (model : String → String → ℚ) (query : String)
    (candidates : List SearchResult) (t : ℚ) :
    ∀ p ∈ rerankFiltered model query candidates (some t), t ≤ p.1 := by
  intro p hp
  have := (List.mem_filter.mp hp).2
  simpa using this

theorem pyIdx_some {α : Type} (l : List α) (i : ℤ)
    (h1 : i < l.length) (h2 : -(l.length : ℤ) ≤ i) :
    ∃ a, pyIdx l i = some a := by
  unfold pyIdx
  by_cases h : 0 ≤ i
  · rw [if_pos h]
    have hn : i.toNat < l.length := by omega
    exact ⟨l[i.toNat], List.getElem?_eq_getElem hn⟩
  · rw [if_neg h, if_pos (by omega)]
    have hn : (i + l.length).toNat < l.length := by omega
    exact ⟨l[(i + l.length).toNat], List.getElem?_eq_getElem hn⟩

/-- C9 (amended): provided no threshold is given, the candidate list is
empty, or at least one candidate meets the threshold, `rerank` returns
normally: the empty list for empty input (without consulting the model),
otherwise the candidates re-scored by the pairwise model and retagged
`"reranked"`, sorted by that score descending, all surviving scores meeting
the threshold when one was given, truncated to at most `top_k` results.
(When a threshold excludes every candidate of a nonempty list, `rerank`
instead fails with an `IndexError` — see the accompanying evaluation.) -/
theorem rerank_spec (model : String → String → ℚ) (query : String)
    (candidates : List SearchResult) (top_k : ℕ) (th : Option ℚ)
    (hsur : candidates ≠ [] → th = none ∨
      ∃ t, th = some t ∧ ∃ c ∈ candidates, t ≤ model query c.content) :
    ∃ out, rerank model query candidates top_k th = Except.ok out ∧
      out.Pairwise (fun a b => b.score ≤ a.score) ∧
      out.length ≤ top_k ∧
      (∀ r ∈ out, r.source = "reranked" ∧
        (∀ t, th = some t → t ≤ r.score) ∧
        ∃ c ∈ candidates, r.content = c.content ∧ r.metadata = c.metadata ∧
          r.score = model query c.content) ∧
      (candidates = [] → out = []) := by
  by_cases hc : candidates.isEmpty
  · refine ⟨[], ?_, by simp, by simp, by simp, fun _ => rfl⟩
    unfold rerank
    rw [if_pos hc]
  · have hcne : candidates ≠ [] := by
      intro h
      rw [h] at hc
      exact hc rfl
    have hfne : rerankFiltered model query candidates th ≠ [] := by
      rcases hsur hcne with h | ⟨t, hts, c, hcmem, hle⟩
      · subst h
        unfold rerankFiltered
        intro hnil
        have hlen := congrArg List.length hnil
        rw [List.length_insertionSort] at hlen
        unfold rerankScored at hlen
        rw [List.length_map] at hlen
        exact hcne (List.length_eq_zero.mp hlen)
      · subst hts
        have hmem : (model query c.content,
            { content := c.content, metadata := c.metadata,
              score := model query c.content,
              source := "reranked" : SearchResult }) ∈
            rerankScored model query candidates :=
          List.mem_map_of_mem _ hcmem
        have hmem2 := (List.perm_insertionSort rerankGE
          (rerankScored model query candidates)).symm.mem_iff.mp hmem
        have hmem3 : (model query c.content,
            { content := c.content, metadata := c.metadata,
              score := model query c.content,
              source := "reranked" : SearchResult }) ∈
            rerankFiltered model query candidates (some t) := by
          unfold rerankFiltered
          exact List.mem_filter.mpr ⟨hmem2, by simpa using hle⟩
        intro hnil
        rw [hnil] at hmem3
        exact List.not_mem_nil _ hmem3
    have hlen : 0 < (rerankFiltered model query candidates th).length :=
      List.length_pos.mpr hfne
    obtain ⟨a0, ha0⟩ := pyIdx_some
      (rerankFiltered model query candidates th) 0 (by exact_mod_cast hlen)
      (by omega)
    obtain ⟨a1, ha1⟩ := pyIdx_some
      (rerankFiltered model query candidates th)
      (min ((top_k : ℤ) - 1)
        (((rerankFiltered model query candidates th).length : ℤ) - 1))
      (by omega) (by omega)
    refine ⟨((rerankFiltered model query candidates th).take top_k).map
      (fun p => p.2), ?_, ?_, ?_, ?_, fun h => absurd h hcne⟩
    · unfold rerank
      rw [if_neg hc, ha0, ha1]
    · rw [List.pairwise_map]
      have hsorted := rerankFiltered_sorted model query candidates th
      have htake := hsorted.sublist (List.take_sublist top_k _)
      apply htake.imp_of_mem
      intro a b ha hb hab
      have hpa := rerankScored_props model query candidates a
        (rerankFiltered_sub model query candidates th a
          (List.mem_of_mem_take ha))
      have hpb := rerankScored_props model query candidates b
        (rerankFiltered_sub model query candidates th b
          (List.mem_of_mem_take hb))
      rw [hpa.1, hpb.1]
      exact hab
    · rw [List.length_map]
      exact List.length_take_le top_k _
    · intro r hr
      rcases List.mem_map.mp hr with ⟨p, hp, hpr⟩
      subst hpr
      have hmemf := List.mem_of_mem_take hp
      obtain ⟨hscore, hsource, c, hcmem, h1, h2, h3⟩ :=
        rerankScored_props model query candidates p
          (rerankFiltered_sub model query candidates th p hmemf)
      refine ⟨hsource, ?_, c, hcmem, h1, h2, by rw [hscore, h3]⟩
      intro t hts
      subst hts
      rw [hscore]
      exact rerankFiltered_thr model query candidates t p hmemf

/-- A single candidate for the reranker fixtures. -/
def fxRerankCand : List SearchResult :=
  [⟨"alpha", ⟨"doc", "res", "vigente", "Art. 1", ""⟩, 0, "hybrid"⟩]

/-- A relevance model that scores every pair 1. -/
def fxModel : String → String → ℚ := fun _ _ => 1

/-- C9 fails as claimed for thresholds that exclude every candidate: with
one candidate scored 1 and threshold 2, `rerank` does not return the
(empty) filtered list — the logging statement indexes the empty filtered
score list and raises `IndexError`. -/
theorem rerank_threshold_counterexample :
    rerank fxModel "q" fxRerankCand 5 (some 2) =
      Except.error "IndexError" := rfl

theorem rerank_spec_witness :
    (fxRerankCand ≠ [] → (none : Option ℚ) = none ∨
      ∃ t, (none : Option ℚ) = some t ∧
        ∃ c ∈ fxRerankCand, t ≤ fxModel "q" c.content) ∧
    ∃ out, rerank fxModel "q" fxRerankCand 5 none = Except.ok out ∧
      out.Pairwise (fun a b => b.score ≤ a.score) ∧
      out.length ≤ 5 ∧
      (∀ r ∈ out, r.source = "reranked" ∧
        (∀ t, (none : Option ℚ) = some t → t ≤ r.score) ∧
        ∃ c ∈ fxRerankCand, r.content = c.content ∧
          r.metadata = c.metadata ∧ r.score = fxModel "q" c.content) ∧
      (fxRerankCand = [] → out = []) :=
  ⟨fun _ => Or.inl rfl,
    rerank_spec fxModel "q" fxRerankCand 5 none (fun _ => Or.inl rfl)⟩

/-- A second single-candidate fixture. -/
def fxRerankCand2 : List SearchResult :=
  [⟨"doc text", ⟨"doc", "res", "vigente", "Art. 2", ""⟩, 0, "hybrid"⟩]

/-- C10's failing input evaluated: a nonempty candidate list whose every
score (0) falls below the threshold (1) makes `rerank` raise `IndexError`
from the final logging statement instead of returning the empty list. -/
theorem rerank_empty_filter_raises :
    rerank (fun _ _ => (0 : ℚ)) "query" fxRerankCand2 5 (some 1) =
      Except.error "IndexError" := rfl

end TCC
